import Mathlib

set_option maxHeartbeats 1000000

namespace Roguelike

/-!
Shallow embedding of the single-header roguelike library (roguelike.h).

Conventions used throughout this development:
* C unsigned int coordinates are modelled as Nat; the single unsigned wrap
  the code relies on (probing x - 1 at x = 0) is made explicit through udec.
* Tile bytes are Nat values of the printable codes used by the library.
* C int arithmetic in rl_map_is_connecting is modelled with Int: a negative
  int converted back to unsigned is a huge value, out of bounds for every
  map whose width * height stays below UINT_MAX, so the Int model with a
  sign check is observationally the same.
* Allocation is assumed to succeed; allocation-failure branches are dropped.
-/

/-- Value of UINT_MAX, so 2 ^ 32 - 1. -/
def uintMax : Nat := 2 ^ 32 - 1

/-- Unsigned decrement: models the C expression x - 1 on an unsigned int. -/
def udec (x : Nat) : Nat := if x = 0 then uintMax else x - 1

def RL_TileRock : Nat := 32
def RL_TileRoom : Nat := 46
def RL_TileCorridor : Nat := 35
def RL_TileDoor : Nat := 43
def RL_TileDoorOpen : Nat := 61

/-- The map structure: width, height and a row-major list of tile bytes. -/
structure RL_Map where
  width : Nat
  height : Nat
  tiles : List Nat
deriving DecidableEq, Repr

/-- Well-formedness facts guaranteed by rl_map_create: positive dimensions,
    a tile buffer of width * height bytes, and width * height < UINT_MAX
    (all asserted there). -/
def RL_Map.WF (m : RL_Map) : Prop :=
  0 < m.width ∧ 0 < m.height ∧
  m.tiles.length = m.width * m.height ∧ m.width * m.height < uintMax

instance (m : RL_Map) : Decidable m.WF := by unfold RL_Map.WF; infer_instance

def rl_map_in_bounds (m : RL_Map) (x y : Nat) : Bool :=
  decide (x < m.width) && decide (y < m.height)

/-- Tile read map->tiles[y * width + x]; only evaluated behind bounds checks. -/
def tileAt (m : RL_Map) (x y : Nat) : Nat :=
  m.tiles.getD (y * m.width + x) 0

def rl_map_is_passable (m : RL_Map) (x y : Nat) : Bool :=
  if rl_map_in_bounds m x y then
    (tileAt m x y == RL_TileRoom) || (tileAt m x y == RL_TileCorridor) ||
    (tileAt m x y == RL_TileDoor) || (tileAt m x y == RL_TileDoorOpen)
  else false

def rl_map_tile_is (m : RL_Map) (x y : Nat) (t : Nat) : Bool :=
  if rl_map_in_bounds m x y then tileAt m x y == t else false

def rl_map_is_opaque (m : RL_Map) (x y : Nat) : Bool :=
  if !rl_map_in_bounds m x y then true
  else if rl_map_tile_is m x y RL_TileDoor then true
  else !rl_map_is_passable m x y

def rl_map_is_wall (m : RL_Map) (x y : Nat) : Bool :=
  if !rl_map_in_bounds m x y then false
  else if !rl_map_is_passable m x y || rl_map_tile_is m x y RL_TileDoor ||
          rl_map_tile_is m x y RL_TileDoorOpen then
    rl_map_is_passable m x (y + 1) ||
    rl_map_is_passable m x (udec y) ||
    rl_map_is_passable m (x + 1) y ||
    rl_map_is_passable m (udec x) y ||
    rl_map_is_passable m (x + 1) (udec y) ||
    rl_map_is_passable m (udec x) (udec y) ||
    rl_map_is_passable m (x + 1) (y + 1) ||
    rl_map_is_passable m (udec x) (y + 1)
  else false

/-- Bounds test for int coordinates (the unsigned conversion of a negative
    int is out of bounds for any well-formed map, hence the sign check). -/
def inBoundsZ (m : RL_Map) (x y : Int) : Bool :=
  decide (0 ≤ x) && decide (x < (m.width : Int)) &&
  decide (0 ≤ y) && decide (y < (m.height : Int))

def passableZ (m : RL_Map) (x y : Int) : Bool :=
  if 0 ≤ x && 0 ≤ y then rl_map_is_passable m x.toNat y.toNat else false

def tileIsZ (m : RL_Map) (x y : Int) (t : Nat) : Bool :=
  if 0 ≤ x && 0 ≤ y then rl_map_tile_is m x.toNat y.toNat t else false

/-- Three consecutive int values centred at a Nat coordinate, in C loop order. -/
def box3 (v : Nat) : List Int := [(v : Int) - 1, (v : Int), (v : Int) + 1]

/-- Three consecutive int values centred at an Int coordinate. -/
def box3Z (v : Int) : List Int := [v - 1, v, v + 1]

/-- Embedding of rl_map_is_connecting: target is connecting from source when
    some in-bounds passable non-door neighbour (3 by 3 box) of the source has
    the target inside its own 3 by 3 box. -/
def rl_map_is_connecting (m : RL_Map) (fx fy tx ty : Nat) : Bool :=
  (box3 fx).any fun x =>
    (box3 fy).any fun y =>
      if !inBoundsZ m x y || !passableZ m x y then false
      else if tileIsZ m x y RL_TileDoor || tileIsZ m x y RL_TileDoorOpen then false
      else (box3Z x).any fun x2 =>
        (box3Z y).any fun y2 =>
          inBoundsZ m x2 y2 && x2 == (tx : Int) && y2 == (ty : Int)

def RL_WallToWest : Nat := 1
def RL_WallToEast : Nat := 2
def RL_WallToNorth : Nat := 4
def RL_WallToSouth : Nat := 8
def RL_WallOther : Nat := 128

/-- Embedding of rl_map_wall, the directional wall bitmask. -/
def rl_map_wall (m : RL_Map) (x y : Nat) : Nat :=
  if !rl_map_is_wall m x y then 0
  else
    let m1 : Nat :=
      if rl_map_is_wall m (x + 1) y && rl_map_is_connecting m x y (x + 1) y then
        RL_WallToEast else 0
    let m2 : Nat :=
      if rl_map_is_wall m (udec x) y && rl_map_is_connecting m x y (udec x) y then
        m1 ||| RL_WallToWest else m1
    let m3 : Nat :=
      if rl_map_is_wall m x (udec y) && rl_map_is_connecting m x y x (udec y) then
        m2 ||| RL_WallToNorth else m2
    let m4 : Nat :=
      if rl_map_is_wall m x (y + 1) && rl_map_is_connecting m x y x (y + 1) then
        m3 ||| RL_WallToSouth else m3
    if m4 == 0 then RL_WallOther else m4

/-- The 8 neighbour offsets in the order the C wall predicate probes them. -/
def neighborOffsets8 : List (Int × Int) :=
  [(0, 1), (0, -1), (1, 0), (-1, 0), (1, -1), (-1, -1), (1, 1), (-1, 1)]

/-- Claim C3 characterisation, following the spec text exactly: a cell is a
    wall iff it is non-passable or a closed Door, and at least one of its 8
    neighbours is passable; out-of-bounds cells are not walls. -/
def wall_per_claim (m : RL_Map) (x y : Nat) : Bool :=
  rl_map_in_bounds m x y &&
  (!rl_map_is_passable m x y || rl_map_tile_is m x y RL_TileDoor) &&
  (neighborOffsets8.any fun d => passableZ m ((x : Int) + d.1) ((y : Int) + d.2))

/-- Amended characterisation: the code also treats open doors as wall bases. -/
def wall_characterization (m : RL_Map) (x y : Nat) : Bool :=
  rl_map_in_bounds m x y &&
  (!rl_map_is_passable m x y || rl_map_tile_is m x y RL_TileDoor ||
   rl_map_tile_is m x y RL_TileDoorOpen) &&
  (neighborOffsets8.any fun d => passableZ m ((x : Int) + d.1) ((y : Int) + d.2))

/-- A 2 by 1 map holding an open door next to a room tile. -/
def mapDoorOpen : RL_Map := ⟨2, 1, [RL_TileDoorOpen, RL_TileRoom]⟩

section WallBridge

variable {m : RL_Map}

theorem width_lt_of_wf (hm : m.WF) : m.width < uintMax := by
  rcases hm with ⟨-, hh, -, h2⟩
  have h3 : m.width * 1 ≤ m.width * m.height := Nat.mul_le_mul_left _ hh
  omega

theorem height_lt_of_wf (hm : m.WF) : m.height < uintMax := by
  rcases hm with ⟨hw, -, -, h2⟩
  have h3 : 1 * m.height ≤ m.width * m.height := Nat.mul_le_mul_right _ hw
  omega

theorem passableZ_coe (x y : Nat) :
    passableZ m (x : Int) (y : Int) = rl_map_is_passable m x y := by
  simp [passableZ]

theorem passableZ_add_one_left (x y : Nat) :
    passableZ m ((x : Int) + 1) (y : Int) = rl_map_is_passable m (x + 1) y := by
  have h : ((x : Int) + 1) = ((x + 1 : Nat) : Int) := by push_cast; ring
  rw [h, passableZ_coe]

theorem passableZ_add_one_right (x y : Nat) :
    passableZ m (x : Int) ((y : Int) + 1) = rl_map_is_passable m x (y + 1) := by
  have h : ((y : Int) + 1) = ((y + 1 : Nat) : Int) := by push_cast; ring
  rw [h, passableZ_coe]

theorem passable_of_oob_left (hw : m.width < uintMax) (y : Nat) :
    rl_map_is_passable m uintMax y = false := by
  unfold rl_map_is_passable rl_map_in_bounds
  have h : ¬ (uintMax < m.width) := by omega
  simp [h]

theorem passable_of_oob_right (hh : m.height < uintMax) (x : Nat) :
    rl_map_is_passable m x uintMax = false := by
  unfold rl_map_is_passable rl_map_in_bounds
  have h : ¬ (uintMax < m.height) := by omega
  simp [h]

theorem passableZ_neg_left (y : Int) : passableZ m (-1) y = false := by
  unfold passableZ
  simp

theorem passableZ_neg_right (x : Int) : passableZ m x (-1) = false := by
  unfold passableZ
  norm_num

theorem passable_udec_left (hw : m.width < uintMax) (x y : Nat) :
    rl_map_is_passable m (udec x) y = passableZ m ((x : Int) - 1) (y : Int) := by
  rcases Nat.eq_zero_or_pos x with hx | hx
  · subst hx
    have h1 : udec 0 = uintMax := by simp [udec]
    have h2 : ((0 : Nat) : Int) - 1 = -1 := by norm_num
    rw [h1, h2, passable_of_oob_left hw, passableZ_neg_left]
  · have h1 : udec x = x - 1 := by
      unfold udec
      rw [if_neg (by omega)]
    have h2 : ((x : Nat) : Int) - 1 = (((x - 1 : Nat)) : Int) := by omega
    rw [h1, h2, passableZ_coe]

theorem passable_udec_right (hh : m.height < uintMax) (x y : Nat) :
    rl_map_is_passable m x (udec y) = passableZ m (x : Int) ((y : Int) - 1) := by
  rcases Nat.eq_zero_or_pos y with hy | hy
  · subst hy
    have h1 : udec 0 = uintMax := by simp [udec]
    have h2 : ((0 : Nat) : Int) - 1 = -1 := by norm_num
    rw [h1, h2, passable_of_oob_right hh, passableZ_neg_right]
  · have h1 : udec y = y - 1 := by
      unfold udec
      rw [if_neg (by omega)]
    have h2 : ((y : Nat) : Int) - 1 = (((y - 1 : Nat)) : Int) := by omega
    rw [h1, h2, passableZ_coe]

theorem passable_udec_both (hw : m.width < uintMax) (hh : m.height < uintMax)
    (x y : Nat) :
    rl_map_is_passable m (udec x) (udec y) =
      passableZ m ((x : Int) - 1) ((y : Int) - 1) := by
  rcases Nat.eq_zero_or_pos x with hx | hx
  · subst hx
    have h1 : udec 0 = uintMax := by simp [udec]
    have h2 : ((0 : Nat) : Int) - 1 = -1 := by norm_num
    rw [h1, h2, passable_of_oob_left hw, passableZ_neg_left]
  · have h1 : udec x = x - 1 := by
      unfold udec
      rw [if_neg (by omega)]
    have h2 : ((x : Nat) : Int) - 1 = (((x - 1 : Nat)) : Int) := by omega
    rw [h1, h2, passable_udec_right hh]

end WallBridge

/-- Claim C3, amended.  For every well-formed map and every coordinate pair,
    rl_map_is_wall agrees with the characterisation: the cell is in bounds,
    it is non-passable or a Door or an open Door, and at least one of its 8
    neighbours is passable.  In particular every out-of-bounds query returns
    false.  (The original claim omitted open doors from the first conjunct.) -/
theorem C3_is_wall_characterization (m : RL_Map) (hm : m.WF) (x y : Nat) :
    rl_map_is_wall m x y = wall_characterization m x y := by
  by_cases hb : rl_map_in_bounds m x y = true
  · have hx : x < m.width := by
      have := hb
      simp [rl_map_in_bounds] at this
      exact this.1
    have hy : y < m.height := by
      have := hb
      simp [rl_map_in_bounds] at this
      exact this.2
    have hw := width_lt_of_wf hm
    have hh := height_lt_of_wf hm
    unfold rl_map_is_wall wall_characterization
    rw [hb]
    simp only [neighborOffsets8, List.any_cons, List.any_nil, Bool.or_false]
    simp only [Bool.not_true, Bool.false_eq_true, if_false, Bool.true_and]
    have nrm : ∀ a : Int, a + -1 = a - 1 := fun a => by ring
    simp only [add_zero, nrm]
    have hcx : ((x : Int) + 1) = ((x + 1 : Nat) : Int) := by push_cast; ring
    have hcy : ((y : Int) + 1) = ((y + 1 : Nat) : Int) := by push_cast; ring
    have p1 : passableZ m (x : Int) ((y : Int) + 1) = rl_map_is_passable m x (y + 1) := by
      rw [hcy, passableZ_coe]
    have p2 : passableZ m (x : Int) ((y : Int) - 1) = rl_map_is_passable m x (udec y) :=
      (passable_udec_right hh x y).symm
    have p3 : passableZ m ((x : Int) + 1) (y : Int) = rl_map_is_passable m (x + 1) y := by
      rw [hcx, passableZ_coe]
    have p4 : passableZ m ((x : Int) - 1) (y : Int) = rl_map_is_passable m (udec x) y :=
      (passable_udec_left hw x y).symm
    have p5 : passableZ m ((x : Int) + 1) ((y : Int) - 1) =
        rl_map_is_passable m (x + 1) (udec y) := by
      rw [hcx]
      exact (passable_udec_right hh (x + 1) y).symm
    have p6 : passableZ m ((x : Int) - 1) ((y : Int) - 1) =
        rl_map_is_passable m (udec x) (udec y) :=
      (passable_udec_both hw hh x y).symm
    have p7 : passableZ m ((x : Int) + 1) ((y : Int) + 1) =
        rl_map_is_passable m (x + 1) (y + 1) := by
      rw [hcx, hcy, passableZ_coe]
    have p8 : passableZ m ((x : Int) - 1) ((y : Int) + 1) =
        rl_map_is_passable m (udec x) (y + 1) := by
      rw [hcy]
      exact (passable_udec_left hw x (y + 1)).symm
    rw [p1, p2, p3, p4, p5, p6, p7, p8]
    by_cases hc : (!rl_map_is_passable m x y || rl_map_tile_is m x y RL_TileDoor ||
        rl_map_tile_is m x y RL_TileDoorOpen) = true
    · rw [if_pos hc, hc]
      simp only [Bool.true_and]
      ac_rfl
    · rw [if_neg hc]
      rw [Bool.not_eq_true] at hc
      rw [hc]
      simp
  · rw [Bool.not_eq_true] at hb
    unfold rl_map_is_wall wall_characterization
    rw [hb]
    simp

/-- Witness for C3_is_wall_characterization at a concrete map. -/
theorem C3_is_wall_characterization_witness :
    mapDoorOpen.WF ∧
      rl_map_is_wall mapDoorOpen 0 0 = wall_characterization mapDoorOpen 0 0 :=
  ⟨by decide, C3_is_wall_characterization mapDoorOpen (by decide) 0 0⟩

/-- Counterexample to claim C3 as stated: in the 2 by 1 map whose first cell
    is an open door and whose second cell is a room tile, the open-door cell
    is reported as a wall by rl_map_is_wall, yet it is passable and not a
    closed Door, so the claimed characterisation calls it a non-wall. -/
theorem C3_counterexample :
    rl_map_is_wall mapDoorOpen 0 0 = true ∧
      wall_per_claim mapDoorOpen 0 0 = false := by
  constructor
  · decide
  · decide

/-! ### Wall masks (claim C8) -/

/-- Wall probe at int coordinates; a negative int converts to an unsigned
    value that is out of bounds for every well-formed map. -/
def wallZ (m : RL_Map) (x y : Int) : Bool :=
  if 0 ≤ x && 0 ≤ y then rl_map_is_wall m x.toNat y.toNat else false

/-- Connecting probe whose target is given as int coordinates. -/
def connectingZ (m : RL_Map) (fx fy : Nat) (tx ty : Int) : Bool :=
  if 0 ≤ tx && 0 ≤ ty then rl_map_is_connecting m fx fy tx.toNat ty.toNat else false

/-- Claim C8 reading of "the origin connects to the probe": some passable
    neighbour (3 by 3 box) of the origin has the probe inside its own box.
    This is the spec text verbatim, without the door exclusion the code has. -/
def connecting_per_claim (m : RL_Map) (fx fy tx ty : Nat) : Bool :=
  (box3 fx).any fun x =>
    (box3 fy).any fun y =>
      if !inBoundsZ m x y || !passableZ m x y then false
      else (box3Z x).any fun x2 =>
        (box3Z y).any fun y2 =>
          inBoundsZ m x2 y2 && x2 == (tx : Int) && y2 == (ty : Int)

section MaskBridge

variable {m : RL_Map}

theorem wall_of_oob_left (hw : m.width < uintMax) (y : Nat) :
    rl_map_is_wall m uintMax y = false := by
  unfold rl_map_is_wall rl_map_in_bounds
  have h : ¬ (uintMax < m.width) := by omega
  simp [h]

theorem wall_of_oob_right (hh : m.height < uintMax) (x : Nat) :
    rl_map_is_wall m x uintMax = false := by
  unfold rl_map_is_wall rl_map_in_bounds
  have h : ¬ (uintMax < m.height) := by omega
  simp [h]

theorem wallZ_coe (x y : Nat) :
    wallZ m (x : Int) (y : Int) = rl_map_is_wall m x y := by
  simp [wallZ]

theorem wall_udec_left (hw : m.width < uintMax) (x y : Nat) :
    rl_map_is_wall m (udec x) y = wallZ m ((x : Int) - 1) (y : Int) := by
  rcases Nat.eq_zero_or_pos x with hx | hx
  · subst hx
    have h1 : udec 0 = uintMax := by simp [udec]
    have h2 : wallZ m (((0 : Nat) : Int) - 1) (y : Int) = false := by
      unfold wallZ
      norm_num
    rw [h1, h2, wall_of_oob_left hw]
  · have h1 : udec x = x - 1 := by
      unfold udec
      rw [if_neg (by omega)]
    have h2 : ((x : Nat) : Int) - 1 = (((x - 1 : Nat)) : Int) := by omega
    rw [h1, h2, wallZ_coe]

theorem wall_udec_right (hh : m.height < uintMax) (x y : Nat) :
    rl_map_is_wall m x (udec y) = wallZ m (x : Int) ((y : Int) - 1) := by
  rcases Nat.eq_zero_or_pos y with hy | hy
  · subst hy
    have h1 : udec 0 = uintMax := by simp [udec]
    have h2 : wallZ m (x : Int) (((0 : Nat) : Int) - 1) = false := by
      unfold wallZ
      norm_num
    rw [h1, h2, wall_of_oob_right hh]
  · have h1 : udec y = y - 1 := by
      unfold udec
      rw [if_neg (by omega)]
    have h2 : ((y : Nat) : Int) - 1 = (((y - 1 : Nat)) : Int) := by omega
    rw [h1, h2, wallZ_coe]

theorem connecting_tx_uintMax (hw : m.width < uintMax) (fx fy ty : Nat) :
    rl_map_is_connecting m fx fy uintMax ty = false := by
  have key : ∀ x2 y2 : Int,
      (inBoundsZ m x2 y2 && (x2 == ((uintMax : Nat) : Int))) = false := by
    intro x2 y2
    by_cases hx2 : x2 = ((uintMax : Nat) : Int)
    · subst hx2
      have hlt : ¬ (((uintMax : Nat) : Int) < (m.width : Int)) := by
        omega
      unfold inBoundsZ
      simp [hlt]
    · simp [beq_eq_false_iff_ne, hx2]
  unfold rl_map_is_connecting box3 box3Z
  simp [key]

theorem connecting_ty_uintMax (hh : m.height < uintMax) (fx fy tx : Nat) :
    rl_map_is_connecting m fx fy tx uintMax = false := by
  have key : ∀ (x2 y2 : Int) (b : Bool),
      ((inBoundsZ m x2 y2 && b) && (y2 == ((uintMax : Nat) : Int))) = false := by
    intro x2 y2 b
    by_cases hy2 : y2 = ((uintMax : Nat) : Int)
    · subst hy2
      have hlt : ¬ (((uintMax : Nat) : Int) < (m.height : Int)) := by
        omega
      unfold inBoundsZ
      simp [hlt]
    · simp [beq_eq_false_iff_ne, hy2]
  unfold rl_map_is_connecting box3 box3Z
  simp [key]

theorem connectingZ_coe (fx fy tx ty : Nat) :
    connectingZ m fx fy (tx : Int) (ty : Int) = rl_map_is_connecting m fx fy tx ty := by
  simp [connectingZ]

theorem connecting_udec_left (hw : m.width < uintMax) (fy : Nat) {x : Nat} :
    rl_map_is_connecting m x fy (udec x) fy = connectingZ m x fy ((x : Int) - 1) (fy : Int) := by
  rcases Nat.eq_zero_or_pos x with hx | hx
  · subst hx
    have h1 : udec 0 = uintMax := by simp [udec]
    have h2 : connectingZ m 0 fy (((0 : Nat) : Int) - 1) (fy : Int) = false := by
      unfold connectingZ
      norm_num
    rw [h1, h2, connecting_tx_uintMax hw]
  · have h1 : udec x = x - 1 := by
      unfold udec
      rw [if_neg (by omega)]
    have h2 : ((x : Nat) : Int) - 1 = (((x - 1 : Nat)) : Int) := by omega
    rw [h1, h2, connectingZ_coe]

theorem connecting_udec_right (hh : m.height < uintMax) (fx : Nat) {y : Nat} :
    rl_map_is_connecting m fx y fx (udec y) = connectingZ m fx y (fx : Int) ((y : Int) - 1) := by
  rcases Nat.eq_zero_or_pos y with hy | hy
  · subst hy
    have h1 : udec 0 = uintMax := by simp [udec]
    have h2 : connectingZ m fx 0 (fx : Int) (((0 : Nat) : Int) - 1) = false := by
      unfold connectingZ
      norm_num
    rw [h1, h2, connecting_ty_uintMax hh]
  · have h1 : udec y = y - 1 := by
      unfold udec
      rw [if_neg (by omega)]
    have h2 : ((y : Nat) : Int) - 1 = (((y - 1 : Nat)) : Int) := by omega
    rw [h1, h2, connectingZ_coe]

end MaskBridge

/-- Claim C8, amended.  For every well-formed map: the wall mask is zero
    exactly on non-walls; for a wall, a cardinal bit is set exactly when the
    cell one step in that direction is also a wall and the code notion of
    connecting holds (some passable neighbour of the origin that is not a
    Door or open Door has the probed cell among its neighbours, which is the
    spec notion restricted to non-door neighbours); and the mask equals Other
    exactly when the cell is a wall and no cardinal condition holds. -/
theorem C8_wall_mask (m : RL_Map) (hm : m.WF) (x y : Nat) :
    (rl_map_wall m x y = 0 ↔ rl_map_is_wall m x y = false) ∧
    ((rl_map_wall m x y &&& RL_WallToEast ≠ 0) ↔
      (rl_map_is_wall m x y = true ∧ wallZ m ((x : Int) + 1) (y : Int) = true ∧
       connectingZ m x y ((x : Int) + 1) (y : Int) = true)) ∧
    ((rl_map_wall m x y &&& RL_WallToWest ≠ 0) ↔
      (rl_map_is_wall m x y = true ∧ wallZ m ((x : Int) - 1) (y : Int) = true ∧
       connectingZ m x y ((x : Int) - 1) (y : Int) = true)) ∧
    ((rl_map_wall m x y &&& RL_WallToNorth ≠ 0) ↔
      (rl_map_is_wall m x y = true ∧ wallZ m (x : Int) ((y : Int) - 1) = true ∧
       connectingZ m x y (x : Int) ((y : Int) - 1) = true)) ∧
    ((rl_map_wall m x y &&& RL_WallToSouth ≠ 0) ↔
      (rl_map_is_wall m x y = true ∧ wallZ m (x : Int) ((y : Int) + 1) = true ∧
       connectingZ m x y (x : Int) ((y : Int) + 1) = true)) ∧
    (rl_map_wall m x y = RL_WallOther ↔
      (rl_map_is_wall m x y = true ∧
       ¬(wallZ m ((x : Int) + 1) (y : Int) = true ∧
         connectingZ m x y ((x : Int) + 1) (y : Int) = true) ∧
       ¬(wallZ m ((x : Int) - 1) (y : Int) = true ∧
         connectingZ m x y ((x : Int) - 1) (y : Int) = true) ∧
       ¬(wallZ m (x : Int) ((y : Int) - 1) = true ∧
         connectingZ m x y (x : Int) ((y : Int) - 1) = true) ∧
       ¬(wallZ m (x : Int) ((y : Int) + 1) = true ∧
         connectingZ m x y (x : Int) ((y : Int) + 1) = true))) := by
  have hw := width_lt_of_wf hm
  have hh := height_lt_of_wf hm
  have hcx : ((x : Int) + 1) = ((x + 1 : Nat) : Int) := by push_cast; ring
  have hcy : ((y : Int) + 1) = ((y + 1 : Nat) : Int) := by push_cast; ring
  have bE : wallZ m ((x : Int) + 1) (y : Int) = rl_map_is_wall m (x + 1) y := by
    rw [hcx, wallZ_coe]
  have bW : wallZ m ((x : Int) - 1) (y : Int) = rl_map_is_wall m (udec x) y :=
    (wall_udec_left hw x y).symm
  have bN : wallZ m (x : Int) ((y : Int) - 1) = rl_map_is_wall m x (udec y) :=
    (wall_udec_right hh x y).symm
  have bS : wallZ m (x : Int) ((y : Int) + 1) = rl_map_is_wall m x (y + 1) := by
    rw [hcy, wallZ_coe]
  have cE : connectingZ m x y ((x : Int) + 1) (y : Int) =
      rl_map_is_connecting m x y (x + 1) y := by
    rw [hcx, connectingZ_coe]
  have cW : connectingZ m x y ((x : Int) - 1) (y : Int) =
      rl_map_is_connecting m x y (udec x) y :=
    (connecting_udec_left hw y).symm
  have cN : connectingZ m x y (x : Int) ((y : Int) - 1) =
      rl_map_is_connecting m x y x (udec y) :=
    (connecting_udec_right hh x).symm
  have cS : connectingZ m x y (x : Int) ((y : Int) + 1) =
      rl_map_is_connecting m x y x (y + 1) := by
    rw [hcy, connectingZ_coe]
  rw [bE, bW, bN, bS, cE, cW, cN, cS]
  simp only [← Bool.and_eq_true]
  cases hwall : rl_map_is_wall m x y with
  | false =>
    simp only [rl_map_wall, hwall, Bool.not_false, if_true]
    simp [RL_WallOther]
  | true =>
    simp only [rl_map_wall, hwall, Bool.not_true, Bool.false_eq_true, if_false]
    cases hc1 : rl_map_is_wall m (x + 1) y && rl_map_is_connecting m x y (x + 1) y <;>
      cases hc2 : rl_map_is_wall m (udec x) y && rl_map_is_connecting m x y (udec x) y <;>
        cases hc3 : rl_map_is_wall m x (udec y) && rl_map_is_connecting m x y x (udec y) <;>
          cases hc4 : rl_map_is_wall m x (y + 1) && rl_map_is_connecting m x y x (y + 1) <;>
            simp only [if_true, if_false, Bool.false_eq_true, Bool.true_eq_false] <;>
              decide

/-- Witness for C8_wall_mask at a concrete map. -/
theorem C8_wall_mask_witness :
    mapDoorOpen.WF ∧
      (rl_map_wall mapDoorOpen 0 0 = 0 ↔ rl_map_is_wall mapDoorOpen 0 0 = false) :=
  ⟨by decide, (C8_wall_mask mapDoorOpen (by decide) 0 0).1⟩

/-- A 3 by 3 rock map with a single (closed) door below-right of the centre. -/
def mapDoorConn : RL_Map :=
  ⟨3, 3, [RL_TileRock, RL_TileRock, RL_TileRock,
          RL_TileRock, RL_TileRock, RL_TileRock,
          RL_TileRock, RL_TileDoor, RL_TileRock]⟩

/-- Counterexample to claim C8 as stated: in mapDoorConn both (1,1) and its
    east neighbour (2,1) are walls, and the spec notion of connecting (which
    counts the door at (1,2) as a passable neighbour) holds from (1,1) to
    (2,1), yet the code clears the East bit because rl_map_is_connecting
    skips door tiles. -/
theorem C8_counterexample :
    rl_map_is_wall mapDoorConn 1 1 = true ∧
      rl_map_is_wall mapDoorConn 2 1 = true ∧
      connecting_per_claim mapDoorConn 1 1 2 1 = true ∧
      rl_map_wall mapDoorConn 1 1 &&& RL_WallToEast = 0 := by
  refine ⟨by decide, by decide, by decide, by decide⟩

/-! ### BSP splitting (claim C7) -/

inductive RL_SplitDirection where
  | horizontal
  | vertical
deriving DecidableEq, Repr

/-- The BSP tree: a rectangle either without children (leaf) or with both a
    left and a right child, mirroring the C invariant that left and right
    are always set together. -/
inductive RL_BSP where
  | leaf (x y width height : Nat)
  | node (x y width height : Nat) (left right : RL_BSP)
deriving DecidableEq, Repr

/-- Embedding of rl_bsp_split.  A node that already has children is left
    unchanged; a vertical split with position >= height, or a horizontal
    split with position >= width, is a no-op; otherwise both children are
    created (allocation is assumed to succeed). -/
def rl_bsp_split : RL_BSP → Nat → RL_SplitDirection → RL_BSP
  | RL_BSP.node x y w h l r, _, _ => RL_BSP.node x y w h l r
  | RL_BSP.leaf x y w h, position, dir =>
    if dir = RL_SplitDirection.vertical ∧ h ≤ position then RL_BSP.leaf x y w h
    else if dir = RL_SplitDirection.horizontal ∧ w ≤ position then RL_BSP.leaf x y w h
    else
      match dir with
      | RL_SplitDirection.vertical =>
          RL_BSP.node x y w h (RL_BSP.leaf x y w position)
            (RL_BSP.leaf x (y + position) w (h - position))
      | RL_SplitDirection.horizontal =>
          RL_BSP.node x y w h (RL_BSP.leaf x y position h)
            (RL_BSP.leaf (x + position) y (w - position) h)

/-- Claim C7, amended.  Splitting a leaf with position strictly below the
    relevant dimension creates both children tiling the parent exactly (the
    left child keeps the parent origin with the split dimension equal to
    position, the right child is offset by position and takes the remaining
    extent); the call is a no-op only when position is at least the
    dimension.  At position 0 the code splits into a degenerate zero-extent
    left child rather than leaving the node unchanged. -/
theorem C7_bsp_split_tiling (x y w h position : Nat) :
    (position < w →
      rl_bsp_split (RL_BSP.leaf x y w h) position RL_SplitDirection.horizontal =
        RL_BSP.node x y w h (RL_BSP.leaf x y position h)
          (RL_BSP.leaf (x + position) y (w - position) h)) ∧
    (w ≤ position →
      rl_bsp_split (RL_BSP.leaf x y w h) position RL_SplitDirection.horizontal =
        RL_BSP.leaf x y w h) ∧
    (position < h →
      rl_bsp_split (RL_BSP.leaf x y w h) position RL_SplitDirection.vertical =
        RL_BSP.node x y w h (RL_BSP.leaf x y w position)
          (RL_BSP.leaf x (y + position) w (h - position))) ∧
    (h ≤ position →
      rl_bsp_split (RL_BSP.leaf x y w h) position RL_SplitDirection.vertical =
        RL_BSP.leaf x y w h) := by
  refine ⟨fun hpos => ?_, fun hpos => ?_, fun hpos => ?_, fun hpos => ?_⟩ <;>
    simp only [rl_bsp_split]
  · rw [if_neg (by simp), if_neg (by simp; omega)]
  · rw [if_neg (by simp), if_pos (by simp; omega)]
  · rw [if_neg (by simp; omega), if_neg (by simp)]
  · rw [if_pos (by simp; omega)]

/-- Witness for C7_bsp_split_tiling at concrete rectangles. -/
theorem C7_bsp_split_tiling_witness :
    rl_bsp_split (RL_BSP.leaf 1 2 6 5) 3 RL_SplitDirection.horizontal =
        RL_BSP.node 1 2 6 5 (RL_BSP.leaf 1 2 3 5) (RL_BSP.leaf 4 2 3 5) ∧
      rl_bsp_split (RL_BSP.leaf 1 2 6 5) 7 RL_SplitDirection.vertical =
        RL_BSP.leaf 1 2 6 5 :=
  ⟨(C7_bsp_split_tiling 1 2 6 5 3).1 (by decide),
   (C7_bsp_split_tiling 1 2 6 5 7).2.2.2 (by decide)⟩

/-- Counterexample to claim C7 as stated: position 0 is not strictly inside
    the width, yet a horizontal split at 0 is not a no-op; the code creates
    a zero-width left child and a full-size right child. -/
theorem C7_counterexample :
    rl_bsp_split (RL_BSP.leaf 0 0 4 4) 0 RL_SplitDirection.horizontal ≠
        RL_BSP.leaf 0 0 4 4 ∧
      rl_bsp_split (RL_BSP.leaf 0 0 4 4) 0 RL_SplitDirection.horizontal =
        RL_BSP.node 0 0 4 4 (RL_BSP.leaf 0 0 0 4) (RL_BSP.leaf 0 0 4 4) := by
  refine ⟨by decide, by decide⟩

/-! ### Priority queue (rl_heap)

The C heap is a growable array of pointers plus a comparison function that
returns nonzero when its first argument should pop first.  We model the
array as a list (reallocation preserves contents and is assumed to
succeed) and the comparison as a Bool-valued function. -/

section HeapDefs

variable {α : Type} [Inhabited α]

/-- Value at index i of the heap array; the C code only reads indices that
    are in range, so the default is never observable. -/
def idx (l : List α) (i : Nat) : α := l.getD i default

/-- The three-line pointer swap used by both sift loops. -/
def lswap (l : List α) (i j : Nat) : List α :=
  (l.set i (idx l j)).set j (idx l i)

@[simp] theorem length_lswap (l : List α) (i j : Nat) :
    (lswap l i j).length = l.length := by
  simp [lswap]

/-- Sift-up loop of rl_heap_insert, with the position itself as structural
    fuel (each step moves to the parent, which is strictly smaller; at fuel
    zero the position is the root and the loop stops anyway). -/
def siftUpAux (lt : α → α → Bool) : Nat → List α → Nat → List α
  | 0, l, _ => l
  | fuel + 1, l, i =>
    if i = 0 then l
    else
      let p := (i - 1) / 2
      if lt (idx l p) (idx l i) then l
      else siftUpAux lt fuel (lswap l p i) p

/-- Sift-up loop of rl_heap_insert: starting from the appended slot, stop at
    the root or as soon as the parent wins the comparison, else swap with
    the parent and continue there. -/
def siftUp (lt : α → α → Bool) (l : List α) (i : Nat) : List α :=
  siftUpAux lt i l i

theorem siftUpAux_fuel (lt : α → α → Bool) :
    ∀ fuel fuel2 (l : List α) i, i ≤ fuel → i ≤ fuel2 →
      siftUpAux lt fuel l i = siftUpAux lt fuel2 l i := by
  intro fuel
  induction fuel with
  | zero =>
    intro fuel2 l i h1 h2
    have h0 : i = 0 := by omega
    subst h0
    cases fuel2 with
    | zero => rfl
    | succ n => simp [siftUpAux]
  | succ n ih =>
    intro fuel2 l i h1 h2
    cases fuel2 with
    | zero =>
      have h0 : i = 0 := by omega
      subst h0
      simp [siftUpAux]
    | succ n2 =>
      show siftUpAux lt (n + 1) l i = siftUpAux lt (n2 + 1) l i
      unfold siftUpAux
      by_cases h0 : i = 0
      · rw [if_pos h0, if_pos h0]
      · rw [if_neg h0, if_neg h0]
        by_cases hlt : lt (idx l ((i - 1) / 2)) (idx l i) = true
        · rw [if_pos hlt, if_pos hlt]
        · rw [if_neg hlt, if_neg hlt]
          exact ih n2 _ _ (by omega) (by omega)

/-- Embedding of rl_heap_insert (capacity growth is contents-preserving). -/
def rl_heap_insert (lt : α → α → Bool) (l : List α) (x : α) : List α :=
  siftUp lt (l ++ [x]) l.length

/-- Intermediate index j of the sift-down loop after comparing with the
    left child a = 2i+1. -/
def downJ1 (lt : α → α → Bool) (l : List α) (i : Nat) : Nat :=
  if 2 * i + 1 < l.length && lt (idx l (2 * i + 1)) (idx l i) then 2 * i + 1 else i

/-- Index the sift-down loop of rl_heap_remove moves to from i, after also
    comparing with the right child b = 2i+2: the preferred child, or i
    itself when no child wins the comparison. -/
def downTarget (lt : α → α → Bool) (l : List α) (i : Nat) : Nat :=
  if 2 * i + 2 < l.length && lt (idx l (2 * i + 2)) (idx l (downJ1 lt l i)) then 2 * i + 2
  else downJ1 lt l i

theorem downTarget_cases (lt : α → α → Bool) (l : List α) (i : Nat) :
    downTarget lt l i = i ∨
    (downTarget lt l i = 2 * i + 1 ∧ 2 * i + 1 < l.length) ∨
    (downTarget lt l i = 2 * i + 2 ∧ 2 * i + 2 < l.length) := by
  unfold downTarget downJ1
  by_cases h1 : (decide (2 * i + 1 < l.length) && lt (idx l (2 * i + 1)) (idx l i)) = true
  all_goals
    by_cases h2 : (decide (2 * i + 2 < l.length) &&
        lt (idx l (2 * i + 2))
          (idx l (if (decide (2 * i + 1 < l.length) &&
            lt (idx l (2 * i + 1)) (idx l i)) = true then 2 * i + 1 else i))) = true
  · rw [if_pos h2]
    rw [Bool.and_eq_true, decide_eq_true_iff] at h2
    exact Or.inr (Or.inr ⟨rfl, h2.1⟩)
  · rw [if_neg h2, if_pos h1]
    rw [Bool.and_eq_true, decide_eq_true_iff] at h1
    exact Or.inr (Or.inl ⟨rfl, h1.1⟩)
  · rw [if_pos h2]
    rw [Bool.and_eq_true, decide_eq_true_iff] at h2
    exact Or.inr (Or.inr ⟨rfl, h2.1⟩)
  · rw [if_neg h2, if_neg h1]
    exact Or.inl rfl

theorem downTarget_gt {lt : α → α → Bool} {l : List α} {i : Nat}
    (h : downTarget lt l i ≠ i) :
    i < downTarget lt l i ∧ downTarget lt l i < l.length := by
  rcases downTarget_cases lt l i with h0 | ⟨he, hl⟩ | ⟨he, hl⟩
  · exact absurd h0 h
  · omega
  · omega

/-- Sift-down loop of rl_heap_remove, with the distance to the end of the
    array as structural fuel (each step moves to a child below the length,
    so the distance strictly shrinks; at fuel zero no child is in range and
    the loop stops anyway). -/
def siftDownAux (lt : α → α → Bool) : Nat → List α → Nat → List α
  | 0, l, _ => l
  | fuel + 1, l, i =>
    let j2 := downTarget lt l i
    if j2 = i then l
    else siftDownAux lt fuel (lswap l i j2) j2

/-- Sift-down loop of rl_heap_remove at index i. -/
def siftDown (lt : α → α → Bool) (l : List α) (i : Nat) : List α :=
  siftDownAux lt (l.length - i) l i

theorem siftDownAux_fuel (lt : α → α → Bool) :
    ∀ fuel fuel2 (l : List α) i, l.length - i ≤ fuel → l.length - i ≤ fuel2 →
      siftDownAux lt fuel l i = siftDownAux lt fuel2 l i := by
  intro fuel
  induction fuel with
  | zero =>
    intro fuel2 l i h1 h2
    have hd : downTarget lt l i = i := by
      rcases downTarget_cases lt l i with h0 | ⟨he, hl⟩ | ⟨he, hl⟩ <;> omega
    cases fuel2 with
    | zero => rfl
    | succ n =>
      show siftDownAux lt 0 l i = siftDownAux lt (n + 1) l i
      unfold siftDownAux
      rw [if_pos hd]
  | succ n ih =>
    intro fuel2 l i h1 h2
    by_cases hd : downTarget lt l i = i
    · cases fuel2 with
      | zero =>
        show siftDownAux lt (n + 1) l i = siftDownAux lt 0 l i
        unfold siftDownAux
        rw [if_pos hd]
      | succ n2 =>
        show siftDownAux lt (n + 1) l i = siftDownAux lt (n2 + 1) l i
        unfold siftDownAux
        rw [if_pos hd, if_pos hd]
    · have hj := downTarget_gt hd
      cases fuel2 with
      | zero => omega
      | succ n2 =>
        show siftDownAux lt (n + 1) l i = siftDownAux lt (n2 + 1) l i
        unfold siftDownAux
        rw [if_neg hd, if_neg hd]
        exact ih n2 _ _ (by simp only [length_lswap]; omega)
          (by simp only [length_lswap]; omega)

/-- Removal of the root: overwrite slot 0 with the last element, shrink by
    one, sift down from the root (rl_heap_remove at index 0). -/
def heapRemoveTop (lt : α → α → Bool) (l : List α) : List α :=
  match l with
  | [] => []
  | x :: xs => siftDown lt (((x :: xs).set 0 (idx (x :: xs) xs.length)).dropLast) 0

/-- Embedding of rl_heap_pop: the root is returned and removed. -/
def rl_heap_pop (lt : α → α → Bool) (l : List α) : Option α × List α :=
  match l with
  | [] => (none, [])
  | x :: xs => (some x, heapRemoveTop lt (x :: xs))

theorem siftDownAux_succ (lt : α → α → Bool) (fuel : Nat) (l : List α) (i : Nat) :
    siftDownAux lt (fuel + 1) l i =
      if downTarget lt l i = i then l
      else siftDownAux lt fuel (lswap l i (downTarget lt l i)) (downTarget lt l i) := rfl

theorem siftDown_eq (lt : α → α → Bool) (l : List α) (i : Nat) :
    siftDown lt l i =
      if downTarget lt l i = i then l
      else siftDown lt (lswap l i (downTarget lt l i)) (downTarget lt l i) := by
  show siftDownAux lt (l.length - i) l i = _
  by_cases h : downTarget lt l i = i
  · rw [if_pos h]
    cases hf : l.length - i with
    | zero => rfl
    | succ n => rw [siftDownAux_succ, if_pos h]
  · rw [if_neg h]
    have hj := downTarget_gt h
    cases hf : l.length - i with
    | zero => omega
    | succ n =>
      rw [siftDownAux_succ, if_neg h]
      show _ = siftDownAux lt
        ((lswap l i (downTarget lt l i)).length - downTarget lt l i)
        (lswap l i (downTarget lt l i)) (downTarget lt l i)
      exact siftDownAux_fuel lt n _ _ _ (by rw [length_lswap]; omega) (Nat.le_refl _)

theorem siftUpAux_succ (lt : α → α → Bool) (fuel : Nat) (l : List α) (i : Nat) :
    siftUpAux lt (fuel + 1) l i =
      if i = 0 then l
      else if lt (idx l ((i - 1) / 2)) (idx l i) then l
      else siftUpAux lt fuel (lswap l ((i - 1) / 2) i) ((i - 1) / 2) := rfl

theorem siftUp_eq (lt : α → α → Bool) (l : List α) (i : Nat) :
    siftUp lt l i =
      if i = 0 then l
      else if lt (idx l ((i - 1) / 2)) (idx l i) then l
      else siftUp lt (lswap l ((i - 1) / 2) i) ((i - 1) / 2) := by
  show siftUpAux lt i l i = _
  by_cases h0 : i = 0
  · subst h0
    rfl
  · rw [if_neg h0]
    cases hi : i with
    | zero => omega
    | succ n =>
      show siftUpAux lt (n + 1) l (n + 1) = _
      rw [siftUpAux_succ, if_neg (Nat.succ_ne_zero n)]
      by_cases hlt : lt (idx l ((n + 1 - 1) / 2)) (idx l (n + 1)) = true
      · rw [if_pos hlt, if_pos hlt]
      · rw [if_neg hlt, if_neg hlt]
        exact siftUpAux_fuel lt n ((n + 1 - 1) / 2)
          (lswap l ((n + 1 - 1) / 2) (n + 1)) ((n + 1 - 1) / 2)
          (by omega) (Nat.le_refl _)

theorem length_siftDown (lt : α → α → Bool) (l : List α) (i : Nat) :
    (siftDown lt l i).length = l.length := by
  have main : ∀ n (l : List α) i, l.length - i ≤ n →
      (siftDown lt l i).length = l.length := by
    intro n
    induction n with
    | zero =>
      intro l i hle
      have hd : downTarget lt l i = i := by
        rcases downTarget_cases lt l i with h0 | ⟨he, hl⟩ | ⟨he, hl⟩ <;> omega
      rw [siftDown_eq, if_pos hd]
    | succ n ih =>
      intro l i hle
      rw [siftDown_eq]
      by_cases hd : downTarget lt l i = i
      · rw [if_pos hd]
      · rw [if_neg hd]
        have hj := downTarget_gt hd
        rw [ih _ _ (by simp only [length_lswap]; omega), length_lswap]
  exact main _ l i (Nat.le_refl _)

theorem length_siftUp (lt : α → α → Bool) (l : List α) (i : Nat) :
    (siftUp lt l i).length = l.length := by
  have main : ∀ n (l : List α) i, i ≤ n → (siftUp lt l i).length = l.length := by
    intro n
    induction n with
    | zero =>
      intro l i hle
      have h0 : i = 0 := by omega
      rw [siftUp_eq, if_pos h0]
    | succ n ih =>
      intro l i hle
      rw [siftUp_eq]
      by_cases h0 : i = 0
      · rw [if_pos h0]
      · rw [if_neg h0]
        by_cases hlt : lt (idx l ((i - 1) / 2)) (idx l i) = true
        · rw [if_pos hlt]
        · rw [if_neg hlt, ih _ _ (by omega), length_lswap]
  exact main _ l i (Nat.le_refl _)

theorem length_heapRemoveTop (lt : α → α → Bool) (x : α) (xs : List α) :
    (heapRemoveTop lt (x :: xs)).length = xs.length := by
  unfold heapRemoveTop
  rw [length_siftDown]
  simp

/-- Draining loop with the heap length as structural fuel (each pop
    removes exactly one element). -/
def heapPopListAux (lt : α → α → Bool) : Nat → List α → List α
  | 0, _ => []
  | fuel + 1, l =>
    match l with
    | [] => []
    | x :: xs => x :: heapPopListAux lt fuel (heapRemoveTop lt (x :: xs))

/-- Repeated popping until the heap drains; with a heap-ordered list this
    yields the sorted sequence of pops. -/
def heapPopList (lt : α → α → Bool) (l : List α) : List α :=
  heapPopListAux lt l.length l

theorem heapPopList_nil (lt : α → α → Bool) : heapPopList lt ([] : List α) = [] := rfl

theorem heapPopList_cons (lt : α → α → Bool) (x : α) (xs : List α) :
    heapPopList lt (x :: xs) = x :: heapPopList lt (heapRemoveTop lt (x :: xs)) := by
  show heapPopListAux lt (xs.length + 1) (x :: xs) = _
  unfold heapPopListAux heapPopList
  rw [length_heapRemoveTop]

end HeapDefs

section HeapPerm

variable {α : Type} [Inhabited α] [DecidableEq α]

theorem set_getElem_self {l : List α} {i : Nat} (h : i < l.length) :
    l.set i l[i] = l := by
  apply List.ext_getElem (by simp)
  intro k h1 h2
  rw [List.getElem_set]
  by_cases hik : i = k
  · subst hik
    simp
  · rw [if_neg hik]

theorem lswap_self {l : List α} {i : Nat} (h : i < l.length) : lswap l i i = l := by
  unfold lswap idx
  rw [List.getD_eq_getElem _ _ h, List.set_set, set_getElem_self h]

theorem lswap_perm {l : List α} {i j : Nat} (hi : i < l.length) (hj : j < l.length) :
    List.Perm (lswap l i j) l := by
  rcases eq_or_ne i j with rfl | hij
  · rw [lswap_self hi]
  · rw [List.perm_iff_count]
    intro c
    unfold lswap idx
    rw [List.getD_eq_getElem _ _ hi, List.getD_eq_getElem _ _ hj]
    have hj2 : j < (l.set i l[j]).length := by simpa using hj
    rw [List.count_set _ _ _ _ hj2, List.count_set _ _ _ _ hi,
      List.getElem_set_ne hij]
    simp only [beq_iff_eq]
    by_cases hbi : l[i] = c <;> by_cases hbj : l[j] = c
    · rw [if_pos hbi, if_pos hbj]
      have hmem : c ∈ l := hbi ▸ l.getElem_mem hi
      have hcount : 1 ≤ l.count c := List.one_le_count_iff.mpr hmem
      omega
    · rw [if_pos hbi, if_neg hbj]
      have hmem : c ∈ l := hbi ▸ l.getElem_mem hi
      have hcount : 1 ≤ l.count c := List.one_le_count_iff.mpr hmem
      omega
    · rw [if_neg hbi, if_pos hbj]
      have hmem : c ∈ l := hbj ▸ l.getElem_mem hj
      have hcount : 1 ≤ l.count c := List.one_le_count_iff.mpr hmem
      omega
    · rw [if_neg hbi, if_neg hbj]
      omega

theorem siftUp_perm (lt : α → α → Bool) (l : List α) (i : Nat) (hi : i < l.length) :
    List.Perm (siftUp lt l i) l := by
  have main : ∀ n (l : List α) i, i ≤ n → i < l.length → List.Perm (siftUp lt l i) l := by
    intro n
    induction n with
    | zero =>
      intro l i hle hi
      have h0 : i = 0 := by omega
      rw [siftUp_eq, if_pos h0]
    | succ n ih =>
      intro l i hle hi
      rw [siftUp_eq]
      by_cases h0 : i = 0
      · rw [if_pos h0]
      · rw [if_neg h0]
        by_cases hlt : lt (idx l ((i - 1) / 2)) (idx l i) = true
        · rw [if_pos hlt]
        · rw [if_neg hlt]
          have hp : (i - 1) / 2 < l.length := by omega
          exact ((ih _ _ (by omega) (by simpa using hp))).trans
            (lswap_perm hp hi)
  exact main _ l i (Nat.le_refl _) hi

theorem siftDown_perm (lt : α → α → Bool) (l : List α) (i : Nat) :
    List.Perm (siftDown lt l i) l := by
  have main : ∀ n (l : List α) i, l.length - i ≤ n → List.Perm (siftDown lt l i) l := by
    intro n
    induction n with
    | zero =>
      intro l i hle
      have hd : downTarget lt l i = i := by
        rcases downTarget_cases lt l i with h0 | ⟨he, hl⟩ | ⟨he, hl⟩ <;> omega
      rw [siftDown_eq, if_pos hd]
    | succ n ih =>
      intro l i hle
      rw [siftDown_eq]
      by_cases hd : downTarget lt l i = i
      · rw [if_pos hd]
      · rw [if_neg hd]
        have hj := downTarget_gt hd
        have hi : i < l.length := by omega
        exact (ih _ _ (by simp only [length_lswap]; omega)).trans
          (lswap_perm hi hj.2)
  exact main _ l i (Nat.le_refl _)

theorem heapRemoveTop_perm (lt : α → α → Bool) (x : α) (xs : List α) :
    List.Perm (heapRemoveTop lt (x :: xs)) xs := by
  unfold heapRemoveTop
  refine (siftDown_perm lt _ 0).trans ?_
  cases xs with
  | nil => simp
  | cons y ys =>
    have hv : idx (x :: y :: ys) (y :: ys).length =
        (y :: ys).getLast (List.cons_ne_nil y ys) := by
      unfold idx
      rw [List.getD_eq_getElem _ _ (by simp)]
      rw [List.getLast_eq_getElem]
      simp
    rw [hv]
    have hset : ((x :: y :: ys).set 0 ((y :: ys).getLast (List.cons_ne_nil y ys))) =
        (y :: ys).getLast (List.cons_ne_nil y ys) :: y :: ys := rfl
    rw [hset, List.dropLast_cons₂]
    refine ((List.perm_append_singleton _ _).symm).trans ?_
    rw [List.dropLast_append_getLast (List.cons_ne_nil y ys)]

theorem rl_heap_insert_perm (lt : α → α → Bool) (l : List α) (x : α) :
    List.Perm (rl_heap_insert lt l x) (x :: l) := by
  unfold rl_heap_insert
  refine (siftUp_perm lt _ _ (by simp)).trans ?_
  exact List.perm_append_singleton x l

theorem heapPopList_perm (lt : α → α → Bool) (l : List α) :
    List.Perm (heapPopList lt l) l := by
  have main : ∀ n (l : List α), l.length ≤ n → List.Perm (heapPopList lt l) l := by
    intro n
    induction n with
    | zero =>
      intro l hle
      have h0 : l = [] := by
        cases l
        · rfl
        · simp at hle
      subst h0
      rw [heapPopList_nil]
    | succ n ih =>
      intro l hle
      cases l with
      | nil => rw [heapPopList_nil]
      | cons x xs =>
        rw [heapPopList_cons]
        refine List.Perm.cons x ?_
        refine (ih _ ?_).trans (heapRemoveTop_perm lt x xs)
        · rw [length_heapRemoveTop]
          simpa using hle
  exact main _ l (Nat.le_refl _)

end HeapPerm

/-! ### Heap ordering (claim C5)

With the comparator given by a strict total order (a linear order's strict
less-than), the array satisfies the standard binary-heap shape invariant and
pops emerge in non-decreasing order. -/

/-- Comparator built from a strict total order, as the claim requires. -/
def ltb {α : Type} [LinearOrder α] : α → α → Bool := fun a b => decide (a < b)

section HeapOrder

variable {α : Type} [Inhabited α] [LinearOrder α]

/-- Binary-heap shape invariant: every non-root slot is at least its parent. -/
def HeapInv (l : List α) : Prop :=
  ∀ c, c < l.length → 0 < c → idx l ((c - 1) / 2) ≤ idx l c

theorem idx_lswap (l : List α) {i j : Nat} (hi : i < l.length) (hj : j < l.length)
    (k : Nat) :
    idx (lswap l i j) k =
      if k = j then idx l i else if k = i then idx l j else idx l k := by
  by_cases hk : k < l.length
  · unfold lswap idx
    rw [List.getD_eq_getElem _ _ hi, List.getD_eq_getElem _ _ hj,
      List.getD_eq_getElem _ _ (by simpa using hk),
      List.getD_eq_getElem _ _ hk]
    by_cases hkj : k = j
    · subst hkj
      simp
    · rw [if_neg hkj, List.getElem_set_ne (fun h => hkj h.symm)]
      by_cases hki : k = i
      · subst hki
        simp
      · rw [if_neg hki, List.getElem_set_ne (fun h => hki h.symm)]
  · have hki : k ≠ i := fun h => hk (h ▸ hi)
    have hkj : k ≠ j := fun h => hk (h ▸ hj)
    rw [if_neg hkj, if_neg hki]
    unfold lswap idx
    rw [List.getD_eq_default _ _ (by simpa using Nat.le_of_not_lt hk),
      List.getD_eq_default _ _ (by simpa using Nat.le_of_not_lt hk)]

theorem ltb_false_le {a b : α} (h : ¬ ltb a b = true) : b ≤ a := by
  simp [ltb] at h
  exact h

theorem ltb_true_lt {a b : α} (h : ltb a b = true) : a < b := by
  simpa [ltb] using h

theorem siftUp_heapInv :
    ∀ n (l : List α) i, i ≤ n → i < l.length →
    (∀ c, c < l.length → 0 < c → c ≠ i → idx l ((c - 1) / 2) ≤ idx l c) →
    (∀ c, c < l.length → (c - 1) / 2 = i → 0 < i → idx l ((i - 1) / 2) ≤ idx l c) →
    HeapInv (siftUp ltb l i) := by
  intro n
  induction n with
  | zero =>
    intro l i hn hi h1 h2
    have h0 : i = 0 := by omega
    rw [siftUp_eq, if_pos h0]
    intro c hc hc0
    exact h1 c hc hc0 (by omega)
  | succ n ih =>
    intro l i hn hi h1 h2
    rw [siftUp_eq]
    by_cases h0 : i = 0
    · rw [if_pos h0]
      intro c hc hc0
      exact h1 c hc hc0 (by omega)
    · rw [if_neg h0]
      by_cases hlt : ltb (idx l ((i - 1) / 2)) (idx l i) = true
      · rw [if_pos hlt]
        intro c hc hc0
        by_cases hci : c = i
        · subst hci
          exact le_of_lt (ltb_true_lt hlt)
        · exact h1 c hc hc0 hci
      · rw [if_neg hlt]
        have hple : idx l i ≤ idx l ((i - 1) / 2) := ltb_false_le hlt
        have hp : (i - 1) / 2 < l.length := by omega
        have hswap := idx_lswap l hp hi
        refine ih (lswap l ((i - 1) / 2) i) ((i - 1) / 2) (by omega)
          (by rw [length_lswap]; exact hp) ?_ ?_
        · intro c hc hc0 hcp
          rw [length_lswap] at hc
          rw [hswap c]
          by_cases hci : c = i
          · rw [if_pos hci, hswap ((c - 1) / 2), if_neg (by omega), if_pos (by omega)]
            exact hple
          · rw [if_neg hci]
            by_cases hpc : (c - 1) / 2 = i
            · rw [if_neg hcp, hswap ((c - 1) / 2), if_pos hpc]
              exact h2 c hc hpc (by omega)
            · by_cases hpp : (c - 1) / 2 = (i - 1) / 2
              · rw [if_neg hcp, hswap ((c - 1) / 2), if_neg hpc, if_pos hpp]
                refine le_trans hple ?_
                rw [← hpp]
                exact h1 c hc hc0 hci
              · rw [if_neg hcp, hswap ((c - 1) / 2), if_neg hpc, if_neg hpp]
                exact h1 c hc hc0 hci
        · intro c hc hpc hp0
          rw [length_lswap] at hc
          rw [hswap c, hswap (((i - 1) / 2 - 1) / 2)]
          have hppi : ((i - 1) / 2 - 1) / 2 ≠ i := by omega
          have hppp : ((i - 1) / 2 - 1) / 2 ≠ (i - 1) / 2 := by omega
          rw [if_neg hppi, if_neg hppp]
          by_cases hci : c = i
          · rw [if_pos hci]
            exact h1 ((i - 1) / 2) hp (by omega) (by omega)
          · rw [if_neg hci, if_neg (by omega)]
            refine le_trans (h1 ((i - 1) / 2) hp (by omega) (by omega)) ?_
            rw [← hpc]
            exact h1 c hc (by omega) hci

theorem downTarget_stay (l : List α) (i : Nat)
    (h : downTarget ltb l i = i) :
    ∀ c, c < l.length → (c - 1) / 2 = i → 0 < c → idx l i ≤ idx l c := by
  intro c hc hpc hc0
  have hcab : c = 2 * i + 1 ∨ c = 2 * i + 2 := by omega
  unfold downTarget downJ1 at h
  by_cases h1 : (decide (2 * i + 1 < l.length) && ltb (idx l (2 * i + 1)) (idx l i)) = true
  · rw [if_pos h1] at h
    by_cases h2 : (decide (2 * i + 2 < l.length) &&
        ltb (idx l (2 * i + 2)) (idx l (2 * i + 1))) = true
    · rw [if_pos h2] at h
      omega
    · rw [if_neg h2] at h
      omega
  · rw [if_neg h1] at h
    by_cases h2 : (decide (2 * i + 2 < l.length) && ltb (idx l (2 * i + 2)) (idx l i)) = true
    · rw [if_pos h2] at h
      omega
    · rw [if_neg h2] at h
      rw [Bool.and_eq_true, decide_eq_true_iff] at h1 h2
      push_neg at h1 h2
      rcases hcab with rfl | rfl
      · exact ltb_false_le (h1 hc)
      · exact ltb_false_le (h2 hc)

theorem downTarget_move (l : List α) (i : Nat)
    (h : downTarget ltb l i ≠ i) :
    idx l (downTarget ltb l i) < idx l i ∧
    (∀ c, c < l.length → (c - 1) / 2 = i → 0 < c → c ≠ downTarget ltb l i →
      idx l (downTarget ltb l i) ≤ idx l c) := by
  unfold downTarget downJ1 at *
  by_cases h1 : (decide (2 * i + 1 < l.length) && ltb (idx l (2 * i + 1)) (idx l i)) = true
  · rw [if_pos h1] at *
    have ha := ltb_true_lt ((Bool.and_eq_true _ _).mp h1).2
    by_cases h2 : (decide (2 * i + 2 < l.length) &&
        ltb (idx l (2 * i + 2)) (idx l (2 * i + 1))) = true
    · rw [if_pos h2] at *
      have hb := ltb_true_lt ((Bool.and_eq_true _ _).mp h2).2
      refine ⟨lt_trans hb ha, ?_⟩
      intro c hc hpc hc0 hcd
      have : c = 2 * i + 1 := by omega
      subst this
      exact le_of_lt hb
    · rw [if_neg h2] at *
      refine ⟨ha, ?_⟩
      intro c hc hpc hc0 hcd
      have : c = 2 * i + 2 := by omega
      subst this
      rw [Bool.and_eq_true, decide_eq_true_iff] at h2
      push_neg at h2
      exact ltb_false_le (h2 hc)
  · rw [if_neg h1] at *
    by_cases h2 : (decide (2 * i + 2 < l.length) && ltb (idx l (2 * i + 2)) (idx l i)) = true
    · rw [if_pos h2] at *
      have hb := ltb_true_lt ((Bool.and_eq_true _ _).mp h2).2
      refine ⟨hb, ?_⟩
      intro c hc hpc hc0 hcd
      have : c = 2 * i + 1 := by omega
      subst this
      rw [Bool.and_eq_true, decide_eq_true_iff] at h1
      push_neg at h1
      exact le_trans (le_of_lt hb) (ltb_false_le (h1 hc))
    · rw [if_neg h2] at *
      exact absurd rfl h

theorem siftDown_heapInv :
    ∀ n (l : List α) i, l.length - i ≤ n →
    (∀ c, c < l.length → 0 < c → (c - 1) / 2 ≠ i → idx l ((c - 1) / 2) ≤ idx l c) →
    (∀ c, c < l.length → (c - 1) / 2 = i → 0 < i → idx l ((i - 1) / 2) ≤ idx l c) →
    HeapInv (siftDown ltb l i) := by
  intro n
  induction n with
  | zero =>
    intro l i hn h1 h2
    have hd : downTarget ltb l i = i := by
      rcases downTarget_cases ltb l i with h0 | ⟨he, hl⟩ | ⟨he, hl⟩ <;> omega
    rw [siftDown_eq, if_pos hd]
    intro c hc hc0
    by_cases hpc : (c - 1) / 2 = i
    · exact hpc ▸ downTarget_stay l i hd c hc hpc hc0
    · exact h1 c hc hc0 hpc
  | succ n ih =>
    intro l i hn h1 h2
    rw [siftDown_eq]
    by_cases hd : downTarget ltb l i = i
    · rw [if_pos hd]
      intro c hc hc0
      by_cases hpc : (c - 1) / 2 = i
      · exact hpc ▸ downTarget_stay l i hd c hc hpc hc0
      · exact h1 c hc hc0 hpc
    · rw [if_neg hd]
      obtain ⟨hgt, hlen⟩ := downTarget_gt hd
      obtain ⟨hlt, hmin⟩ := downTarget_move l i hd
      set j2 := downTarget ltb l i with hj2def
      have hi : i < l.length := by omega
      have hswap := idx_lswap l hi hlen
      have hj2child : (j2 - 1) / 2 = i := by
        rcases downTarget_cases ltb l i with h0 | ⟨he, -⟩ | ⟨he, -⟩
        · exact absurd h0 hd
        · rw [hj2def, he]; omega
        · rw [hj2def, he]; omega
      refine ih (lswap l i j2) j2 (by simp only [length_lswap]; omega) ?_ ?_
      · intro c hc hc0 hpc
        rw [length_lswap] at hc
        rw [hswap c]
        by_cases hcj : c = j2
        · rw [if_pos hcj, hswap ((c - 1) / 2), if_neg (by omega), if_pos (by omega)]
          exact le_of_lt hlt
        · rw [if_neg hcj]
          by_cases hci : c = i
          · rw [if_pos hci, hswap ((c - 1) / 2), if_neg (by omega), if_neg (by omega)]
            rw [hci]
            exact h2 j2 hlen hj2child (by omega)
          · rw [if_neg hci, hswap ((c - 1) / 2)]
            by_cases hpci : (c - 1) / 2 = i
            · rw [if_neg (by omega), if_pos hpci]
              exact hmin c hc hpci hc0 hcj
            · rw [if_neg hpc, if_neg hpci]
              exact h1 c hc hc0 hpci
      · intro c hc hpc hj20
        rw [length_lswap] at hc
        rw [hswap c, hswap ((j2 - 1) / 2), hj2child]
        rw [if_neg (by omega), if_pos rfl]
        have hcne : c ≠ i := by omega
        have hcnj : c ≠ j2 := by omega
        rw [if_neg hcnj, if_neg hcne, ← hpc]
        exact h1 c hc (by omega) (by omega)

theorem heapInv_nil : HeapInv ([] : List α) := by
  intro c hc hc0
  simp at hc

theorem idx_append_left {l : List α} {c : Nat} (hc : c < l.length) (x : α) :
    idx (l ++ [x]) c = idx l c := by
  unfold idx
  exact List.getD_append l [x] default c hc

theorem heapInv_insert {l : List α} (hl : HeapInv l) (x : α) :
    HeapInv (rl_heap_insert ltb l x) := by
  unfold rl_heap_insert
  refine siftUp_heapInv l.length (l ++ [x]) l.length (Nat.le_refl _) (by simp) ?_ ?_
  · intro c hc hc0 hci
    rw [List.length_append] at hc
    have hcl : c < l.length := by simp at hc; omega
    rw [idx_append_left hcl, idx_append_left (by omega)]
    exact hl c hcl hc0
  · intro c hc hpc hp0
    rw [List.length_append] at hc
    simp at hc
    omega

theorem heapInv_removeTop {x : α} {xs : List α} (hl : HeapInv (x :: xs)) :
    HeapInv (heapRemoveTop ltb (x :: xs)) := by
  unfold heapRemoveTop
  have hlen : (((x :: xs).set 0 (idx (x :: xs) xs.length)).dropLast).length = xs.length := by
    simp
  have hidx : ∀ k, 0 < k → k < xs.length →
      idx (((x :: xs).set 0 (idx (x :: xs) xs.length)).dropLast) k = idx (x :: xs) k := by
    intro k hk0 hk
    show (((x :: xs).set 0 (idx (x :: xs) xs.length)).dropLast).getD k default =
      (x :: xs).getD k default
    rw [List.getD_eq_getElem _ _ (by rw [hlen]; exact hk),
      List.getD_eq_getElem _ _ (by simp only [List.length_cons]; omega)]
    rw [List.getElem_dropLast, List.getElem_set_ne (by omega)]
  refine siftDown_heapInv xs.length _ 0 (by rw [hlen]; omega) ?_ ?_
  · intro c hc hc0 hpc
    rw [hlen] at hc
    have hpc0 : 0 < (c - 1) / 2 := by omega
    rw [hidx c hc0 hc, hidx ((c - 1) / 2) hpc0 (by omega)]
    exact hl c (by simp; omega) hc0
  · intro c hc hpc hp0
    omega

theorem heapInv_root_le {l : List α} (hl : HeapInv l) :
    ∀ c, c < l.length → idx l 0 ≤ idx l c := by
  intro c
  induction c using Nat.strong_induction_on with
  | _ c ih =>
    intro hc
    rcases Nat.eq_zero_or_pos c with rfl | hc0
    · exact le_refl _
    · exact le_trans (ih ((c - 1) / 2) (by omega) (by omega)) (hl c hc hc0)

theorem heapInv_le_of_mem {l : List α} (hl : HeapInv l) {b : α} (hb : b ∈ l) :
    idx l 0 ≤ b := by
  obtain ⟨k, hk, rfl⟩ := List.mem_iff_getElem.mp hb
  rw [← List.getD_eq_getElem l default hk]
  exact heapInv_root_le hl k hk

theorem heapPopList_sorted {l : List α} (hl : HeapInv l) :
    (heapPopList ltb l).Sorted (· ≤ ·) := by
  have main : ∀ n (l : List α), l.length ≤ n → HeapInv l →
      (heapPopList ltb l).Sorted (· ≤ ·) := by
    intro n
    induction n with
    | zero =>
      intro l hle hl
      have h0 : l = [] := by
        cases l
        · rfl
        · simp at hle
      subst h0
      rw [heapPopList_nil]
      exact List.sorted_nil
    | succ n ih =>
      intro l hle hl
      cases l with
      | nil =>
        rw [heapPopList_nil]
        exact List.sorted_nil
      | cons x xs =>
        rw [heapPopList_cons]
        rw [List.sorted_cons]
        constructor
        · intro b hb
          have hb1 : b ∈ heapRemoveTop ltb (x :: xs) :=
            (heapPopList_perm ltb _).mem_iff.mp hb
          have hb2 : b ∈ xs := (heapRemoveTop_perm ltb x xs).mem_iff.mp hb1
          have := heapInv_le_of_mem hl (List.mem_cons_of_mem x hb2)
          simpa [idx] using this
        · refine ih _ ?_ (heapInv_removeTop hl)
          rw [length_heapRemoveTop]
          simpa using hle
  exact main _ l (Nat.le_refl _) hl

theorem foldl_insert_heapInv (xs : List α) :
    ∀ l, HeapInv l → HeapInv (xs.foldl (rl_heap_insert ltb) l) := by
  induction xs with
  | nil => intro l hl; exact hl
  | cons x xs ih =>
    intro l hl
    rw [List.foldl_cons]
    exact ih _ (heapInv_insert hl x)

theorem foldl_insert_perm (xs : List α) :
    ∀ l, List.Perm (xs.foldl (rl_heap_insert ltb) l) (xs ++ l) := by
  induction xs with
  | nil => intro l; simp
  | cons x xs ih =>
    intro l
    rw [List.foldl_cons]
    refine (ih _).trans ?_
    refine (List.Perm.append_left xs (rl_heap_insert_perm ltb l x)).trans ?_
    exact List.perm_middle

end HeapOrder

/-- Claim C5.  With a comparator that is a strict total order (the strict
    order of a linear order): inserting one item into an empty heap and
    popping returns that item with the heap drained; and after inserting
    any sequence of items and popping until empty, the popped items emerge
    in non-decreasing order and are exactly the inserted items. -/
theorem C5_heap_pop_ordering {α : Type} [Inhabited α] [LinearOrder α] :
    (∀ x : α, rl_heap_pop ltb (rl_heap_insert ltb ([] : List α) x) = (some x, [])) ∧
    (∀ xs : List α,
      (heapPopList ltb (xs.foldl (rl_heap_insert ltb) [])).Sorted (· ≤ ·) ∧
      List.Perm (heapPopList ltb (xs.foldl (rl_heap_insert ltb) [])) xs) := by
  constructor
  · intro x
    have h1 : rl_heap_insert ltb ([] : List α) x = [x] := by
      unfold rl_heap_insert
      rw [siftUp_eq]
      simp
    rw [h1]
    have h2 : rl_heap_pop ltb [x] = (some x, siftDown ltb ([] : List α) 0) := rfl
    rw [h2, siftDown_eq]
    norm_num [downTarget, downJ1]
  · intro xs
    have hinv : HeapInv (xs.foldl (rl_heap_insert ltb) []) :=
      foldl_insert_heapInv xs [] heapInv_nil
    have hperm : List.Perm (xs.foldl (rl_heap_insert ltb) []) xs := by
      simpa using foldl_insert_perm xs []
    exact ⟨heapPopList_sorted hinv, (heapPopList_perm ltb _).trans hperm⟩

/-! ### Pathfinding graphs and Dijkstra scoring (claims C2, C6, C9)

Scores are C floats initialised to FLT_MAX; we model a score as an
Option over the rationals, with none standing for FLT_MAX (unscored).
The C code stores the score inside each node; the embedding keeps the
immutable graph shape (points and neighbour pointers, the latter as
indices into the node array) apart from the mutable score array. -/

/-- Strict comparison on scores; FLT_MAX compares above every finite
    score and not below itself, exactly as the float comparison does. -/
def sLT : Option ℚ → Option ℚ → Bool
  | some a, some b => decide (a < b)
  | some _, none => true
  | none, _ => false

/-- Adding a finite float to a score (current->score + distance). -/
def sAdd : Option ℚ → ℚ → Option ℚ
  | some a, d => some (a + d)
  | none, _ => none

structure RL_GraphNode where
  point : ℚ × ℚ
  neighbors : List Nat
deriving DecidableEq, Repr

instance : Inhabited RL_GraphNode := ⟨⟨(0, 0), []⟩⟩

structure RL_Graph where
  nodes : List RL_GraphNode
deriving DecidableEq, Repr

def pointAt (g : RL_Graph) (i : Nat) : ℚ × ℚ := (g.nodes.getD i default).point

def nbrs (g : RL_Graph) (i : Nat) : List Nat := (g.nodes.getD i default).neighbors

def scoreAt (scores : List (Option ℚ)) (i : Nat) : Option ℚ := scores.getD i none

/-- Neighbour references point into the node array. -/
def RL_Graph.WF (g : RL_Graph) : Prop :=
  ∀ nd ∈ g.nodes, ∀ j ∈ nd.neighbors, j < g.nodes.length

/-- The float absolute value fabsf over exact coordinates. -/
def qabs (a : ℚ) : ℚ := if a < 0 then -a else a

/-- Manhattan distance over exact coordinates (rl_distance_manhattan). -/
def rl_distance_manhattan (p q : ℚ × ℚ) : ℚ := qabs (p.1 - q.1) + qabs (p.2 - q.2)

/-- Running-minimum loop of rl_graph_lowest_scored_neighbor. -/
def lowestLoop (scores : List (Option ℚ)) : List Nat → Option Nat → Option Nat
  | [], lowest => lowest
  | j :: rest, lowest =>
      match lowest with
      | none => lowestLoop scores rest (some j)
      | some l =>
          if sLT (scoreAt scores j) (scoreAt scores l) then lowestLoop scores rest (some j)
          else lowestLoop scores rest (some l)

/-- Embedding of rl_graph_lowest_scored_neighbor.  The outer none is the
    undefined behaviour of the C code: with an empty neighbour list the
    local lowest_neighbor stays NULL and the final score test dereferences
    it.  Otherwise some none is the NULL result (minimum is FLT_MAX) and
    some (some j) is the returned neighbour. -/
def rl_graph_lowest_scored_neighbor (g : RL_Graph) (scores : List (Option ℚ))
    (i : Nat) : Option (Option Nat) :=
  match lowestLoop scores (nbrs g i) none with
  | none => none
  | some l => if scoreAt scores l = none then some none else some (some l)

/-- Dijkstra working state: the score array and the open heap of node
    indices (the C heap holds node pointers). -/
structure DState where
  scores : List (Option ℚ)
  heap : List Nat
deriving Repr

/-- Heap comparator rl_scored_graph_heap_comparison, reading live scores. -/
def scoreLt (scores : List (Option ℚ)) : Nat → Nat → Bool :=
  fun a b => sLT (scoreAt scores a) (scoreAt scores b)

/-- Relaxation of the popped node over its neighbour list: a neighbour
    whose tentative distance improves its score is inserted into the heap
    the first time its score leaves FLT_MAX, then rescored. -/
def relaxNeighbors (f : ℚ × ℚ → ℚ × ℚ → ℚ) (g : RL_Graph) (cur : Nat) :
    List Nat → DState → DState
  | [], st => st
  | j :: rest, st =>
      let dist := sAdd (scoreAt st.scores cur) (f (pointAt g cur) (pointAt g j))
      if sLT dist (scoreAt st.scores j) then
        let heap2 :=
          if scoreAt st.scores j = none then rl_heap_insert (scoreLt st.scores) st.heap j
          else st.heap
        relaxNeighbors f g cur rest ⟨st.scores.set j dist, heap2⟩
      else relaxNeighbors f g cur rest st

/-- Main Dijkstra loop: pop the minimum and relax until the heap drains.
    The fuel 2n+2 passed by rl_dijkstra_score is enough: every iteration
    pops one entry and every insertion is paired with a score leaving
    FLT_MAX, which happens at most once per node (proved below as the
    drain lemma). -/
def dijkstraLoop (f : ℚ × ℚ → ℚ × ℚ → ℚ) (g : RL_Graph) :
    Nat → DState → DState
  | 0, st => st
  | fuel + 1, st =>
      match rl_heap_pop (scoreLt st.scores) st.heap with
      | (none, _) => st
      | (some cur, heap2) =>
          dijkstraLoop f g fuel
            (relaxNeighbors f g cur (nbrs g cur) ⟨st.scores, heap2⟩)

/-- Index the C initialisation loop leaves in current: the last node whose
    point equals the seed (none models the uninitialised-pointer UB when no
    node matches). -/
def seedIndex (g : RL_Graph) (s : ℚ × ℚ) : Option Nat :=
  (List.range g.nodes.length).foldl
    (fun acc i => if pointAt g i = s then some i else acc) none

/-- Embedding of rl_dijkstra_score (the default scorer adds the current
    score to the distance function, which is what relaxNeighbors does). -/
def rl_dijkstra_score (g : RL_Graph) (s : ℚ × ℚ) (f : ℚ × ℚ → ℚ × ℚ → ℚ) :
    Option (List (Option ℚ)) :=
  match seedIndex g s with
  | none => none
  | some cur =>
      let scores0 := (List.range g.nodes.length).map
        (fun i => if pointAt g i = s then some (0 : ℚ) else none)
      some (dijkstraLoop f g (2 * g.nodes.length + 2)
        ⟨scores0, rl_heap_insert (scoreLt scores0) [] cur⟩).scores

/-! Graph creation from a map (rl_graph_create_ex with the default
    passability filter and diagonal neighbours, as rl_graph_create). -/

/-- The eight candidate neighbour offsets in the C order, tagged with
    whether they are diagonal (entries 4 to 7). -/
def graphNeighborCandidates (x y : Nat) : List ((Int × Int) × Bool) :=
  [(((x : Int) + 1, (y : Int)), false),
   (((x : Int) - 1, (y : Int)), false),
   (((x : Int), (y : Int) + 1), false),
   (((x : Int), (y : Int) - 1), false),
   (((x : Int) + 1, (y : Int) + 1), true),
   (((x : Int) + 1, (y : Int) - 1), true),
   (((x : Int) - 1, (y : Int) + 1), true),
   (((x : Int) - 1, (y : Int) - 1), true)]

/-- Embedding of rl_graph_create_ex with passable_f = rl_map_is_passable:
    one node per cell at index x + y*width, neighbours filtered by
    passability, bounds, and optionally diagonality. -/
def rl_graph_create_ex (m : RL_Map) (usePassable : Bool) (allowDiag : Bool) :
    RL_Graph :=
  ⟨(List.range (m.width * m.height)).map fun i =>
    let x := i % m.width
    let y := i / m.width
    { point := ((x : ℚ), (y : ℚ))
      neighbors :=
        ((graphNeighborCandidates x y).filter fun cd =>
          (!usePassable || passableZ m cd.1.1 cd.1.2) &&
          inBoundsZ m cd.1.1 cd.1.2 && (allowDiag || !cd.2)).map
          fun cd => cd.1.1.toNat + cd.1.2.toNat * m.width }⟩

def rl_graph_create (m : RL_Map) : RL_Graph := rl_graph_create_ex m true true

/-- Embedding of rl_dijkstra_create. -/
def rl_dijkstra_create (m : RL_Map) (start : ℚ × ℚ) (f : ℚ × ℚ → ℚ × ℚ → ℚ) :
    RL_Graph × Option (List (Option ℚ)) :=
  (rl_graph_create m, rl_dijkstra_score (rl_graph_create m) start f)

/-- Score test of the walk loop in rl_path_create_from_graph: the float
    comparison node->score > 0 is true for FLT_MAX and for every positive
    finite score. -/
def sGT0 : Option ℚ → Bool
  | none => true
  | some q => decide (0 < q)

/-- Walk loop of rl_path_create_from_graph: descend through the lowest
    scored neighbour until a zero score or a NULL descent; none is a fault
    propagated from rl_graph_lowest_scored_neighbor.  The fuel bounds the
    walk; on Dijkstra-scored graphs scores strictly decrease along the
    walk, so nodes+1 steps are enough. -/
def pathWalkLoop (g : RL_Graph) (scores : List (Option ℚ)) :
    Nat → Nat → List (ℚ × ℚ) → Option (List (ℚ × ℚ))
  | 0, _, _ => none
  | fuel + 1, i, acc =>
      if !sGT0 (scoreAt scores i) then some acc
      else
        match rl_graph_lowest_scored_neighbor g scores i with
        | none => none
        | some none => some acc
        | some (some j) => pathWalkLoop g scores fuel j (acc ++ [pointAt g j])

/-- Embedding of rl_path_create_from_graph. -/
def rl_path_create_from_graph (g : RL_Graph) (scores : List (Option ℚ))
    (start : ℚ × ℚ) : Option (List (ℚ × ℚ)) :=
  match seedIndex g start with
  | none => some [start]
  | some i0 => pathWalkLoop g scores (g.nodes.length + 1) i0 [start]

/-- Embedding of rl_path_create: Dijkstra from the destination, then a
    descending walk from the start. -/
def rl_path_create (m : RL_Map) (start dest : ℚ × ℚ)
    (f : ℚ × ℚ → ℚ × ℚ → ℚ) : Option (List (ℚ × ℚ)) :=
  let g := rl_graph_create m
  match rl_dijkstra_score g dest f with
  | none => none
  | some scores => rl_path_create_from_graph g scores start

/-- A 1 by 1 room map: its graph has a single node with no neighbours. -/
def map1x1 : RL_Map := ⟨1, 1, [RL_TileRoom]⟩

/-- Claim C6 (code bug).  On the graph of the 1 by 1 map the single node
    has an empty neighbour list, and rl_graph_lowest_scored_neighbor
    dereferences the NULL running minimum (the none result of the
    embedding) instead of returning NULL as the spec states. -/
theorem C6_lowest_neighbor_empty_faults :
    nbrs (rl_graph_create map1x1) 0 = [] ∧
      rl_graph_lowest_scored_neighbor (rl_graph_create map1x1) [some 0] 0 = none := by
  refine ⟨by decide, by decide⟩

/-- A 3 by 3 map whose only passable cells are the two opposite corners. -/
def mapIsolatedCorners : RL_Map :=
  ⟨3, 3, [RL_TileRoom, RL_TileRock, RL_TileRock,
          RL_TileRock, RL_TileRock, RL_TileRock,
          RL_TileRock, RL_TileRock, RL_TileRoom]⟩

/-- Claim C9 (code bug).  The start (0,0) is passable and the end (2,2) is
    unreachable from it, so the claim requires a single-node path; but the
    start node has no graph neighbours, the walk loop immediately calls
    rl_graph_lowest_scored_neighbor on it, and that dereferences NULL (the
    none result) instead of producing the one-point path. -/
theorem C9_path_create_unreachable_faults :
    rl_map_is_passable mapIsolatedCorners 0 0 = true ∧
      rl_path_create mapIsolatedCorners ((0 : ℚ), (0 : ℚ)) ((2 : ℚ), (2 : ℚ))
        rl_distance_manhattan = none := by
  refine ⟨by decide, by decide⟩

/-! ### Dijkstra correctness development (claim C2) -/

section DijkstraProof

/-- Strict transitivity of the float score comparison. -/
theorem sLT_trans {a b c : Option ℚ} (h1 : sLT a b = true) (h2 : sLT b c = true) :
    sLT a c = true := by
  cases a with
  | none => simp [sLT] at h1
  | some x =>
    cases b with
    | none => simp [sLT] at h2
    | some y =>
      cases c with
      | none => simp [sLT]
      | some z =>
        simp [sLT] at h1 h2 ⊢
        exact h1.trans h2

/-- Negative transitivity of the float score comparison. -/
theorem sLT_neg_trans {a b c : Option ℚ} (h1 : sLT a b = false) (h2 : sLT b c = false) :
    sLT a c = false := by
  cases a with
  | none => simp [sLT]
  | some x =>
    cases b with
    | none => simp [sLT] at h1
    | some y =>
      cases c with
      | none => simp [sLT] at h2
      | some z =>
        simp [sLT] at h1 h2 ⊢
        exact h2.trans h1

theorem sLT_irrefl (a : Option ℚ) : sLT a a = false := by
  cases a <;> simp [sLT]

theorem sLT_none_right {a : Option ℚ} (h : a ≠ none) : sLT a none = true := by
  cases a with
  | none => exact absurd rfl h
  | some x => simp [sLT]

theorem sLT_false_some {a : Option ℚ} {d : ℚ} (h : sLT (some d) a = false) :
    ∃ y, a = some y ∧ y ≤ d := by
  cases a with
  | none => simp [sLT] at h
  | some y =>
    simp [sLT] at h
    exact ⟨y, rfl, h⟩

/-- Number of FLT_MAX entries in the score array. -/
def noneCount : List (Option ℚ) → Nat
  | [] => 0
  | none :: t => noneCount t + 1
  | some _ :: t => noneCount t

theorem noneCount_le (l : List (Option ℚ)) : noneCount l ≤ l.length := by
  induction l with
  | nil => simp [noneCount]
  | cons a t ih =>
    cases a with
    | none => simp [noneCount]; omega
    | some q => simp [noneCount]; omega

theorem noneCount_set_none {l : List (Option ℚ)} {j : Nat} (hj : j < l.length)
    (h : l.getD j none = none) (q : ℚ) :
    noneCount (l.set j (some q)) + 1 = noneCount l := by
  induction l generalizing j with
  | nil => simp at hj
  | cons a t ih =>
    cases j with
    | zero =>
      rw [List.getD_cons_zero] at h
      subst h
      simp [List.set, noneCount]
    | succ k =>
      simp at hj
      rw [List.getD_cons_succ] at h
      cases a with
      | none => simp [List.set, noneCount]; exact ih hj h
      | some r => simp [List.set, noneCount]; exact ih hj h

theorem noneCount_set_some {l : List (Option ℚ)} {j : Nat}
    (h : l.getD j none ≠ none) (q : ℚ) :
    noneCount (l.set j (some q)) = noneCount l := by
  induction l generalizing j with
  | nil => simp [List.getD] at h
  | cons a t ih =>
    cases j with
    | zero =>
      cases a with
      | none => rw [List.getD_cons_zero] at h; exact absurd rfl h
      | some r => simp [List.set, noneCount]
    | succ k =>
      rw [List.getD_cons_succ] at h
      cases a with
      | none => simp [List.set, noneCount]; exact ih h
      | some r => simp [List.set, noneCount]; exact ih h

theorem scoreAt_set_self {l : List (Option ℚ)} {j : Nat} (hj : j < l.length)
    (v : Option ℚ) : scoreAt (l.set j v) j = v := by
  unfold scoreAt
  rw [List.getD_eq_getElem _ _ (by simpa using hj)]
  simp [List.getElem_set_self]

theorem scoreAt_set_ne {l : List (Option ℚ)} {j k : Nat} (hk : k ≠ j)
    (v : Option ℚ) : scoreAt (l.set j v) k = scoreAt l k := by
  unfold scoreAt
  by_cases hlen : k < l.length
  · rw [List.getD_eq_getElem _ _ (by simpa using hlen),
      List.getD_eq_getElem _ _ hlen]
    rw [List.getElem_set]
    rw [if_neg (show ¬ j = k from fun h => hk h.symm)]
  · have h1 : l.length ≤ k := by omega
    rw [List.getD_eq_default _ _ (by simp only [List.length_set]; exact h1),
      List.getD_eq_default _ _ h1]

theorem mem_rl_heap_insert {α : Type} [Inhabited α] [DecidableEq α] (lt : α → α → Bool)
    (l : List α) (x a : α) : a ∈ rl_heap_insert lt l x ↔ a = x ∨ a ∈ l := by
  rw [(rl_heap_insert_perm lt l x).mem_iff]
  simp

theorem length_rl_heap_insert {α : Type} [Inhabited α] [DecidableEq α] (lt : α → α → Bool)
    (l : List α) (x : α) : (rl_heap_insert lt l x).length = l.length + 1 := by
  rw [(rl_heap_insert_perm lt l x).length_eq]
  simp

theorem mem_heapRemoveTop {α : Type} [Inhabited α] [DecidableEq α] (lt : α → α → Bool)
    (x : α) (xs : List α) (a : α) : a ∈ heapRemoveTop lt (x :: xs) ↔ a ∈ xs :=
  (heapRemoveTop_perm lt x xs).mem_iff

/-- The running-minimum loop returns an element of the candidate set that no
    candidate strictly undercuts. -/
theorem lowestLoop_min (sc : List (Option ℚ)) :
    ∀ lst m, ∃ l, lowestLoop sc lst (some m) = some l ∧ (l = m ∨ l ∈ lst) ∧
      sLT (scoreAt sc m) (scoreAt sc l) = false ∧
      ∀ j ∈ lst, sLT (scoreAt sc j) (scoreAt sc l) = false := by
  intro lst
  induction lst with
  | nil =>
    intro m
    exact ⟨m, rfl, Or.inl rfl, sLT_irrefl _, by simp⟩
  | cons j rest ih =>
    intro m
    by_cases hj : sLT (scoreAt sc j) (scoreAt sc m) = true
    · obtain ⟨l, hl, hmem, hmin, hall⟩ := ih j
      refine ⟨l, ?_, ?_, ?_, ?_⟩
      · simp only [lowestLoop, hj, if_pos]
        exact hl
      · rcases hmem with h | h
        · exact Or.inr (by simp [h])
        · exact Or.inr (by simp [h])
      · by_contra hc
        rw [Bool.not_eq_false] at hc
        have := sLT_trans hj hc
        rw [hmin] at this
        exact Bool.false_ne_true this
      · intro k hk
        rcases List.mem_cons.mp hk with rfl | hk
        · exact hmin
        · exact hall k hk
    · rw [Bool.not_eq_true] at hj
      obtain ⟨l, hl, hmem, hmin, hall⟩ := ih m
      refine ⟨l, ?_, ?_, hmin, ?_⟩
      · simp only [lowestLoop, hj]
        simpa using hl
      · rcases hmem with h | h
        · exact Or.inl h
        · exact Or.inr (by simp [h])
      · intro k hk
        rcases List.mem_cons.mp hk with rfl | hk
        · exact sLT_neg_trans hj hmin
        · exact hall k hk

/-- On a nonempty neighbour list the loop produces a member that is minimal
    over the whole list. -/
theorem lowestLoop_min_of_cons (sc : List (Option ℚ)) (j : Nat) (rest : List Nat) :
    ∃ l, lowestLoop sc (j :: rest) none = some l ∧ l ∈ j :: rest ∧
      ∀ k ∈ j :: rest, sLT (scoreAt sc k) (scoreAt sc l) = false := by
  obtain ⟨l, hl, hmem, hmin, hall⟩ := lowestLoop_min sc rest j
  refine ⟨l, by simpa [lowestLoop] using hl, ?_, ?_⟩
  · rcases hmem with h | h
    · exact by simp [h]
    · exact by simp [h]
  · intro k hk
    rcases List.mem_cons.mp hk with rfl | hk
    · exact hmin
    · exact hall k hk

/-- The initialisation loop leaves in current a node whose point is the
    seed whenever one exists. -/
theorem seedIndex_spec (g : RL_Graph) (s : ℚ × ℚ) :
    ∀ L acc, ((List.foldl (fun acc i => if pointAt g i = s then some i else acc)
        acc L = acc ∧ ∀ i ∈ L, pointAt g i ≠ s) ∨
      (∃ i ∈ L, List.foldl (fun acc i => if pointAt g i = s then some i else acc)
        acc L = some i ∧ pointAt g i = s)) := by
  intro L
  induction L with
  | nil => intro acc; exact Or.inl ⟨rfl, by simp⟩
  | cons j rest ih =>
    intro acc
    by_cases hj : pointAt g j = s
    · rcases ih (some j) with ⟨h1, h2⟩ | ⟨i, hi, h1, h2⟩
      · refine Or.inr ⟨j, by simp, ?_, hj⟩
        simp only [List.foldl_cons, if_pos hj]
        exact h1
      · refine Or.inr ⟨i, by simp [hi], ?_, h2⟩
        simp only [List.foldl_cons, if_pos hj]
        exact h1
    · rcases ih acc with ⟨h1, h2⟩ | ⟨i, hi, h1, h2⟩
      · refine Or.inl ⟨?_, ?_⟩
        · simp only [List.foldl_cons, if_neg hj]
          exact h1
        · intro i hi
          rcases List.mem_cons.mp hi with rfl | hi
          · exact hj
          · exact h2 i hi
      · refine Or.inr ⟨i, by simp [hi], ?_, h2⟩
        simp only [List.foldl_cons, if_neg hj]
        exact h1

/-- With a seed node present, seedIndex finds a seed-pointed node index. -/
theorem seedIndex_some {g : RL_Graph} {s : ℚ × ℚ} {i0 : Nat}
    (h0 : i0 < g.nodes.length) (hp : pointAt g i0 = s) :
    ∃ i, seedIndex g s = some i ∧ i < g.nodes.length ∧ pointAt g i = s := by
  rcases seedIndex_spec g s (List.range g.nodes.length) none with ⟨h1, h2⟩ | ⟨i, hi, h1, h2⟩
  · exact absurd hp (h2 i0 (List.mem_range.mpr h0))
  · exact ⟨i, h1, List.mem_range.mp hi, h2⟩

/-- Every edge goes both ways (true of graphs built by rl_graph_create). -/
def EdgeSymm (g : RL_Graph) : Prop :=
  ∀ i, i < g.nodes.length → ∀ j, j ∈ nbrs g i → i ∈ nbrs g j

/-- The distance function is positive across every edge. -/
def EdgePos (g : RL_Graph) (f : ℚ × ℚ → ℚ × ℚ → ℚ) : Prop :=
  ∀ i, i < g.nodes.length → ∀ j, j ∈ nbrs g i → 0 < f (pointAt g i) (pointAt g j)

/-- Exactly one node carries the seed point. -/
def UniqueSeed (g : RL_Graph) (s : ℚ × ℚ) : Prop :=
  ∃ i0, i0 < g.nodes.length ∧ pointAt g i0 = s ∧
    ∀ j, j < g.nodes.length → pointAt g j = s → j = i0

/-- Reachability from the seed point along graph edges. -/
inductive ReachableFrom (g : RL_Graph) (s : ℚ × ℚ) : Nat → Prop
  | seed (i : Nat) : i < g.nodes.length → pointAt g i = s → ReachableFrom g s i
  | step (i j : Nat) : ReachableFrom g s i → j ∈ nbrs g i → ReachableFrom g s j

/-- Neighbour indices of an in-range node are in range. -/
theorem nbrs_lt {g : RL_Graph} (hWF : g.WF) {i j : Nat}
    (hi : i < g.nodes.length) (hj : j ∈ nbrs g i) : j < g.nodes.length := by
  unfold nbrs at hj
  rw [List.getD_eq_getElem _ _ hi] at hj
  exact hWF _ (List.getElem_mem hi) j hj

/-- Working invariant of the scoring loop, minus the relaxation-closure
    clause (which is restored after each full relaxation pass). -/
structure InvCore (g : RL_Graph) (s : ℚ × ℚ) (st : DState) : Prop where
  len : st.scores.length = g.nodes.length
  hb : ∀ j ∈ st.heap, j < g.nodes.length
  hf : ∀ j ∈ st.heap, scoreAt st.scores j ≠ none
  seed : ∀ i, i < g.nodes.length → pointAt g i = s → scoreAt st.scores i = some 0
  pos : ∀ i, i < g.nodes.length → pointAt g i ≠ s → ∀ q, scoreAt st.scores i = some q → 0 < q
  wit : ∀ i, i < g.nodes.length → ∀ q, scoreAt st.scores i = some q → 0 < q →
      ∃ j, j ∈ nbrs g i ∧ ∃ r, scoreAt st.scores j = some r ∧ r < q

/-- Closure clause: every scored node is still on the heap or has all its
    neighbours scored, except possibly the node being relaxed. -/
def ClExcept (g : RL_Graph) (cur : Nat) (st : DState) : Prop :=
  ∀ i, i < g.nodes.length → scoreAt st.scores i ≠ none →
    i ∈ st.heap ∨ i = cur ∨ ∀ j ∈ nbrs g i, scoreAt st.scores j ≠ none

/-- Strict closure: every scored node is on the heap or fully relaxed. -/
def Closure (g : RL_Graph) (st : DState) : Prop :=
  ∀ i, i < g.nodes.length → scoreAt st.scores i ≠ none →
    i ∈ st.heap ∨ ∀ j ∈ nbrs g i, scoreAt st.scores j ≠ none

/-- Loop potential: every iteration pops one heap entry, and every insertion
    is paired with a score leaving FLT_MAX. -/
def phi (st : DState) : Nat := st.heap.length + 2 * noneCount st.scores

/-- What one full relaxation pass from the popped node does: the invariant
    is kept, the popped node keeps its score, the potential does not grow,
    heap membership and finiteness of scores are monotone, and every
    processed neighbour ends up scored. -/
theorem relax_spec {g : RL_Graph} {s : ℚ × ℚ} {f : ℚ × ℚ → ℚ × ℚ → ℚ}
    (hWF : g.WF) (hsym : EdgeSymm g) (hpos : EdgePos g f)
    {cur : Nat} (hcur : cur < g.nodes.length) {c : ℚ} (hc : 0 ≤ c) :
    ∀ lst, (∀ j ∈ lst, j ∈ nbrs g cur) → ∀ st, InvCore g s st → ClExcept g cur st →
      scoreAt st.scores cur = some c →
      InvCore g s (relaxNeighbors f g cur lst st) ∧
      ClExcept g cur (relaxNeighbors f g cur lst st) ∧
      scoreAt (relaxNeighbors f g cur lst st).scores cur = some c ∧
      phi (relaxNeighbors f g cur lst st) ≤ phi st ∧
      (∀ k, k ∈ st.heap → k ∈ (relaxNeighbors f g cur lst st).heap) ∧
      (∀ k, scoreAt st.scores k ≠ none →
        scoreAt (relaxNeighbors f g cur lst st).scores k ≠ none) ∧
      (∀ j ∈ lst, scoreAt (relaxNeighbors f g cur lst st).scores j ≠ none) := by
  intro lst
  induction lst with
  | nil =>
    intro _ st hI hC hsc
    exact ⟨hI, hC, hsc, le_refl _, fun k hk => hk, fun k hk => hk, by simp⟩
  | cons j rest ih =>
    intro hsub st hI hC hsc
    have hj : j ∈ nbrs g cur := hsub j (by simp)
    have hrest : ∀ k ∈ rest, k ∈ nbrs g cur := fun k hk => hsub k (by simp [hk])
    have hjlt : j < g.nodes.length := nbrs_lt hWF hcur hj
    have hfpos : 0 < f (pointAt g cur) (pointAt g j) := hpos cur hcur j hj
    have hdist : sAdd (scoreAt st.scores cur) (f (pointAt g cur) (pointAt g j)) =
        some (c + f (pointAt g cur) (pointAt g j)) := by
      rw [hsc]; rfl
    set d := c + f (pointAt g cur) (pointAt g j) with hd
    have hdpos : 0 < d := by positivity
    have hdc : c < d := by simp [hd]; exact hfpos
    simp only [relaxNeighbors, hdist]
    by_cases hw : sLT (some d) (scoreAt st.scores j) = true
    · rw [if_pos hw]
      have hjcur : j ≠ cur := by
        intro h
        rw [h, hsc] at hw
        simp [sLT] at hw
        exact absurd hw (by simp; exact le_of_lt hdc)
      set heap2 := if scoreAt st.scores j = none
        then rl_heap_insert (scoreLt st.scores) st.heap j else st.heap with hh2
      set st' : DState := ⟨st.scores.set j (some d), heap2⟩ with hst'
      have hsh : st'.heap = heap2 := rfl
      have hss : st'.scores = st.scores.set j (some d) := rfl
      have hjlen : j < st.scores.length := by rw [hI.len]; exact hjlt
      have hsc'j : scoreAt st'.scores j = some d := scoreAt_set_self hjlen _
      have hsc'ne : ∀ k, k ≠ j → scoreAt st'.scores k = scoreAt st.scores k :=
        fun k hk => scoreAt_set_ne hk _
      have hsc' : scoreAt st'.scores cur = some c := by
        rw [hsc'ne cur (fun h => hjcur h.symm)]; exact hsc
      have hheap2 : ∀ k, k ∈ st.heap → k ∈ heap2 := by
        intro k hk
        rw [hh2]
        by_cases ho : scoreAt st.scores j = none
        · rw [if_pos ho, mem_rl_heap_insert]; exact Or.inr hk
        · rw [if_neg ho]; exact hk
      have hfin : ∀ k, scoreAt st.scores k ≠ none → scoreAt st'.scores k ≠ none := by
        intro k hk
        by_cases hkj : k = j
        · rw [hkj, hsc'j]; simp
        · rw [hsc'ne k hkj]; exact hk
      have hI' : InvCore g s st' := by
        refine ⟨?_, ?_, ?_, ?_, ?_, ?_⟩
        · show (st.scores.set j (some d)).length = _
          rw [List.length_set]; exact hI.len
        · intro k hk
          rw [hsh, hh2] at hk
          by_cases ho : scoreAt st.scores j = none
          · rw [if_pos ho, mem_rl_heap_insert] at hk
            rcases hk with rfl | hk
            · exact hjlt
            · exact hI.hb k hk
          · rw [if_neg ho] at hk
            exact hI.hb k hk
        · intro k hk
          rw [hsh, hh2] at hk
          by_cases ho : scoreAt st.scores j = none
          · rw [if_pos ho, mem_rl_heap_insert] at hk
            rcases hk with rfl | hk
            · rw [hsc'j]; simp
            · exact hfin k (hI.hf k hk)
          · rw [if_neg ho] at hk
            exact hfin k (hI.hf k hk)
        · intro i hilt hip
          by_cases hij : i = j
          · exfalso
            rw [hij] at hip
            have h0 := hI.seed j hjlt hip
            rw [h0] at hw
            simp [sLT] at hw
            exact absurd hw (by simp; exact le_of_lt hdpos)
          · rw [hsc'ne i hij]; exact hI.seed i hilt hip
        · intro i hilt hip q hq
          by_cases hij : i = j
          · rw [hij, hsc'j] at hq
            injection hq with hqd
            rw [← hqd]
            exact hdpos
          · rw [hsc'ne i hij] at hq
            exact hI.pos i hilt hip q hq
        · intro i hilt q hq hqpos
          by_cases hij : i = j
          · subst hij
            rw [hsc'j] at hq
            injection hq with hqd
            subst hqd
            refine ⟨cur, hsym cur hcur i hj, c, hsc', hdc⟩
          · rw [hsc'ne i hij] at hq
            obtain ⟨j', hj', r, hr, hrq⟩ := hI.wit i hilt q hq hqpos
            by_cases hj'j : j' = j
            · subst hj'j
              rw [hr] at hw
              simp [sLT] at hw
              exact ⟨j', hj', d, hsc'j, lt_trans hw hrq⟩
            · exact ⟨j', hj', r, by rw [hsc'ne j' hj'j]; exact hr, hrq⟩
      have hC' : ClExcept g cur st' := by
        intro i hilt hni
        by_cases hij : i = j
        · subst hij
          by_cases ho : scoreAt st.scores i = none
          · left
            rw [hsh, hh2, if_pos ho, mem_rl_heap_insert]
            exact Or.inl rfl
          · rcases hC i hilt ho with hhp | hcu | hnb
            · exact Or.inl (hheap2 i hhp)
            · exact Or.inr (Or.inl hcu)
            · exact Or.inr (Or.inr (fun k hk => hfin k (hnb k hk)))
        · rw [hsc'ne i hij] at hni
          rcases hC i hilt hni with hhp | hcu | hnb
          · exact Or.inl (hheap2 i hhp)
          · exact Or.inr (Or.inl hcu)
          · exact Or.inr (Or.inr (fun k hk => hfin k (hnb k hk)))
      have hphi : phi st' ≤ phi st := by
        by_cases ho : scoreAt st.scores j = none
        · have hlen2 : heap2.length = st.heap.length + 1 := by
            rw [hh2, if_pos ho, length_rl_heap_insert]
          have hnc := noneCount_set_none hjlen ho d
          show heap2.length + 2 * noneCount (st.scores.set j (some d)) ≤ _
          rw [hlen2]
          unfold phi
          omega
        · have hlen2 : heap2.length = st.heap.length := by rw [hh2, if_neg ho]
          have hnc := noneCount_set_some ho d
          show heap2.length + 2 * noneCount (st.scores.set j (some d)) ≤ phi st
          unfold phi
          rw [hlen2, hnc]
      obtain ⟨c1, c2, c3, c4, c5, c6, c7⟩ := ih hrest st' hI' hC' hsc'
      refine ⟨c1, c2, c3, le_trans c4 hphi, ?_, ?_, ?_⟩
      · exact fun k hk => c5 k (hheap2 k hk)
      · exact fun k hk => c6 k (hfin k hk)
      · intro k hk
        rcases List.mem_cons.mp hk with rfl | hk
        · exact c6 k (by rw [hsc'j]; simp)
        · exact c7 k hk
    · rw [if_neg hw]
      rw [Bool.not_eq_true] at hw
      obtain ⟨y, hy, _⟩ := sLT_false_some hw
      obtain ⟨c1, c2, c3, c4, c5, c6, c7⟩ := ih hrest st hI hC hsc
      refine ⟨c1, c2, c3, c4, c5, c6, ?_⟩
      intro k hk
      rcases List.mem_cons.mp hk with rfl | hk
      · exact c6 k (by rw [hy]; simp)
      · exact c7 k hk

/-- The scoring loop preserves the invariant and, given fuel above the
    potential, drains the heap completely (the C loop runs until the heap
    empties; the potential argument shows 2n+2 iterations always suffice). -/
theorem dijkstraLoop_spec {g : RL_Graph} {s : ℚ × ℚ} {f : ℚ × ℚ → ℚ × ℚ → ℚ}
    (hWF : g.WF) (hsym : EdgeSymm g) (hpos : EdgePos g f) :
    ∀ fuel st, InvCore g s st → Closure g st → phi st < fuel →
      InvCore g s (dijkstraLoop f g fuel st) ∧
      Closure g (dijkstraLoop f g fuel st) ∧
      (dijkstraLoop f g fuel st).heap = [] := by
  intro fuel
  induction fuel with
  | zero => intro st _ _ h; omega
  | succ n ih =>
    intro st hI hCl hphi
    cases hheap : st.heap with
    | nil =>
      have heq : dijkstraLoop f g (n + 1) st = st := by
        simp only [dijkstraLoop, hheap, rl_heap_pop]
      rw [heq]
      exact ⟨hI, hCl, hheap⟩
    | cons x xs =>
      have hx : x ∈ st.heap := by rw [hheap]; simp
      have hcur : x < g.nodes.length := hI.hb x hx
      cases hsx : scoreAt st.scores x with
      | none => exact absurd hsx (hI.hf x hx)
      | some c =>
        have hcge : 0 ≤ c := by
          by_cases hp : pointAt g x = s
          · have := hI.seed x hcur hp
            rw [hsx] at this
            injection this with h
            rw [h]
          · exact le_of_lt (hI.pos x hcur hp c hsx)
        have heq : dijkstraLoop f g (n + 1) st =
            dijkstraLoop f g n (relaxNeighbors f g x (nbrs g x)
              ⟨st.scores, heapRemoveTop (scoreLt st.scores) (x :: xs)⟩) := by
          simp only [dijkstraLoop, hheap, rl_heap_pop]
        have hmem2 : ∀ k, k ∈ heapRemoveTop (scoreLt st.scores) (x :: xs) →
            k ∈ st.heap := by
          intro k hk
          rw [mem_heapRemoveTop] at hk
          rw [hheap]
          exact List.mem_cons_of_mem x hk
        have hI1 : InvCore g s
            (⟨st.scores, heapRemoveTop (scoreLt st.scores) (x :: xs)⟩ : DState) := by
          refine ⟨hI.len, ?_, ?_, hI.seed, hI.pos, hI.wit⟩
          · exact fun k hk => hI.hb k (hmem2 k hk)
          · exact fun k hk => hI.hf k (hmem2 k hk)
        have hC1 : ClExcept g x
            (⟨st.scores, heapRemoveTop (scoreLt st.scores) (x :: xs)⟩ : DState) := by
          intro i hilt hni
          rcases hCl i hilt hni with hhp | hnb
          · rw [hheap] at hhp
            rcases List.mem_cons.mp hhp with rfl | hhp
            · exact Or.inr (Or.inl rfl)
            · exact Or.inl ((mem_heapRemoveTop _ _ _ _).mpr hhp)
          · exact Or.inr (Or.inr hnb)
        obtain ⟨r1, r2, r3, r4, r5, r6, r7⟩ :=
          relax_spec (s := s) hWF hsym hpos hcur hcge (nbrs g x)
            (fun j h => h) _ hI1 hC1 hsx
        have hClosure2 : Closure g (relaxNeighbors f g x (nbrs g x)
            ⟨st.scores, heapRemoveTop (scoreLt st.scores) (x :: xs)⟩) := by
          intro i hilt hni
          rcases r2 i hilt hni with hhp | hcu | hnb
          · exact Or.inl hhp
          · exact Or.inr (by rw [hcu]; exact r7)
          · exact Or.inr hnb
        have hphi1 : phi (⟨st.scores,
            heapRemoveTop (scoreLt st.scores) (x :: xs)⟩ : DState) + 1 = phi st := by
          unfold phi
          rw [hheap]
          show (heapRemoveTop (scoreLt st.scores) (x :: xs)).length + _ + 1 = _
          rw [length_heapRemoveTop]
          simp
          omega
        have hphi2 : phi (relaxNeighbors f g x (nbrs g x)
            (⟨st.scores, heapRemoveTop (scoreLt st.scores) (x :: xs)⟩ : DState)) < n := by
          omega
        rw [heq]
        exact ih _ r1 hClosure2 hphi2

theorem scoreAt_scores0 (g : RL_Graph) (s : ℚ × ℚ) (k : Nat) :
    scoreAt ((List.range g.nodes.length).map
        (fun i => if pointAt g i = s then some (0 : ℚ) else none)) k =
      if k < g.nodes.length then
        (if pointAt g k = s then some 0 else none) else none := by
  by_cases hk : k < g.nodes.length
  · rw [if_pos hk]
    unfold scoreAt
    rw [List.getD_eq_getElem _ _ (by simpa using hk)]
    simp
  · rw [if_neg hk]
    unfold scoreAt
    rw [List.getD_eq_default _ _ (by simpa using hk)]

/-- rl_dijkstra_score with a unique seed node, a symmetric graph and
    positive edge costs terminates with a drained heap, and the final score
    array satisfies the full invariant. -/
theorem rl_dijkstra_score_spec {g : RL_Graph} {s : ℚ × ℚ} {f : ℚ × ℚ → ℚ × ℚ → ℚ}
    (hWF : g.WF) (hsym : EdgeSymm g) (hpos : EdgePos g f) (hseed : UniqueSeed g s) :
    ∃ sc, rl_dijkstra_score g s f = some sc ∧ sc.length = g.nodes.length ∧
      InvCore g s ⟨sc, []⟩ ∧ Closure g ⟨sc, []⟩ := by
  obtain ⟨i0, hi0, hp0, huniq⟩ := hseed
  obtain ⟨iS, hSeq, hSlt, hSp⟩ := seedIndex_some hi0 hp0
  set scores0 := (List.range g.nodes.length).map
    (fun i => if pointAt g i = s then some (0 : ℚ) else none) with hsc0
  have hlen0 : scores0.length = g.nodes.length := by
    rw [hsc0]; simp
  have hins : rl_heap_insert (scoreLt scores0) [] iS = [iS] := rfl
  have hI0 : InvCore g s ⟨scores0, [iS]⟩ := by
    refine ⟨hlen0, ?_, ?_, ?_, ?_, ?_⟩
    · intro k hk
      rcases List.mem_singleton.mp hk with rfl
      exact hSlt
    · intro k hk
      rcases List.mem_singleton.mp hk with rfl
      show scoreAt scores0 k ≠ none
      rw [hsc0, scoreAt_scores0, if_pos hSlt, if_pos hSp]
      simp
    · intro i hi hp
      show scoreAt scores0 i = some 0
      rw [hsc0, scoreAt_scores0, if_pos hi, if_pos hp]
    · intro i hi hp q hq
      rw [hsc0, scoreAt_scores0, if_pos hi, if_neg hp] at hq
      exact absurd hq (by simp)
    · intro i hi q hq hqpos
      rw [hsc0, scoreAt_scores0, if_pos hi] at hq
      by_cases hp : pointAt g i = s
      · rw [if_pos hp] at hq
        injection hq with h
        rw [← h] at hqpos
        exact absurd hqpos (by simp)
      · rw [if_neg hp] at hq
        exact absurd hq (by simp)
  have hCl0 : Closure g ⟨scores0, [iS]⟩ := by
    intro i hi hfin
    left
    show i ∈ [iS]
    rw [hsc0, scoreAt_scores0, if_pos hi] at hfin
    by_cases hp : pointAt g i = s
    · have h1 : i = i0 := huniq i hi hp
      have h2 : iS = i0 := huniq iS hSlt hSp
      simp [h1, h2]
    · rw [if_neg hp] at hfin
      exact absurd rfl hfin
  have hphi0 : phi ⟨scores0, [iS]⟩ < 2 * g.nodes.length + 2 := by
    unfold phi
    have := noneCount_le scores0
    rw [hlen0] at this
    simp only [List.length_singleton]
    omega
  obtain ⟨r1, r2, r3⟩ := dijkstraLoop_spec (s := s) hWF hsym hpos
    (2 * g.nodes.length + 2) ⟨scores0, [iS]⟩ hI0 hCl0 hphi0
  refine ⟨(dijkstraLoop f g (2 * g.nodes.length + 2) ⟨scores0, [iS]⟩).scores, ?_, ?_, ?_, ?_⟩
  · show rl_dijkstra_score g s f = _
    simp only [rl_dijkstra_score, hSeq]
    rw [← hsc0, hins]
  · exact r1.len
  · have hfin := r1
    rcases hst : dijkstraLoop f g (2 * g.nodes.length + 2) ⟨scores0, [iS]⟩ with ⟨sc2, h2⟩
    rw [hst] at hfin r3
    simp at r3 hfin ⊢
    rw [r3] at hfin
    exact hfin
  · have hfin := r2
    rcases hst : dijkstraLoop f g (2 * g.nodes.length + 2) ⟨scores0, [iS]⟩ with ⟨sc2, h2⟩
    rw [hst] at hfin r3
    simp at r3 hfin ⊢
    rw [r3] at hfin
    exact hfin

/-- On a score array with the invariant properties, the descending walk of
    rl_path_create_from_graph always terminates at a node carrying the seed
    point, within fuel exceeding the number of strictly lower scored nodes. -/
theorem pathWalk_reaches {g : RL_Graph} {s : ℚ × ℚ} (hWF : g.WF)
    {sc : List (Option ℚ)}
    (hseed0 : ∀ i, i < g.nodes.length → pointAt g i = s → scoreAt sc i = some 0)
    (hpos : ∀ i, i < g.nodes.length → pointAt g i ≠ s → ∀ q,
      scoreAt sc i = some q → 0 < q)
    (hwit : ∀ i, i < g.nodes.length → ∀ q, scoreAt sc i = some q → 0 < q →
      ∃ j, j ∈ nbrs g i ∧ ∃ r, scoreAt sc j = some r ∧ r < q) :
    ∀ fuel i acc, i < g.nodes.length → scoreAt sc i ≠ none →
      ((Finset.range g.nodes.length).filter
        (fun k => sLT (scoreAt sc k) (scoreAt sc i) = true)).card < fuel →
      acc.getLast? = some (pointAt g i) →
      ∃ p, pathWalkLoop g sc fuel i acc = some p ∧ p.getLast? = some s := by
  intro fuel
  induction fuel with
  | zero => intro i acc _ _ hcard _; omega
  | succ n ih =>
    intro i acc hilt hfin hcard hlast
    cases hsi : scoreAt sc i with
    | none => exact absurd hsi hfin
    | some q =>
      by_cases hqpos : 0 < q
      · have hsg : sGT0 (scoreAt sc i) = true := by
          rw [hsi]; simp [sGT0]; exact hqpos
        obtain ⟨j, hj, r, hr, hrq⟩ := hwit i hilt q hsi hqpos
        cases hnb : nbrs g i with
        | nil => rw [hnb] at hj; exact absurd hj (by simp)
        | cons j0 rest =>
          obtain ⟨l, hlo, hlmem, hlmin⟩ := lowestLoop_min_of_cons sc j0 rest
          rw [hnb] at hj
          have hminj : sLT (scoreAt sc j) (scoreAt sc l) = false := hlmin j hj
          rw [hr] at hminj
          obtain ⟨r2, hl2, hr2⟩ := sLT_false_some hminj
          have hllt : l < g.nodes.length := nbrs_lt hWF hilt (by rw [hnb]; exact hlmem)
          have hlow : rl_graph_lowest_scored_neighbor g sc i = some (some l) := by
            unfold rl_graph_lowest_scored_neighbor
            rw [hnb, hlo]
            simp [hl2]
          have hstep : pathWalkLoop g sc (n + 1) i acc =
              pathWalkLoop g sc n l (acc ++ [pointAt g l]) := by
            simp only [pathWalkLoop, hsg, hlow]
            rfl
          have hltrue : sLT (scoreAt sc l) (scoreAt sc i) = true := by
            rw [hl2, hsi]
            simp [sLT]
            exact lt_of_le_of_lt hr2 hrq
          have hsub : (Finset.range g.nodes.length).filter
              (fun k => sLT (scoreAt sc k) (scoreAt sc l) = true) ⊂
              (Finset.range g.nodes.length).filter
              (fun k => sLT (scoreAt sc k) (scoreAt sc i) = true) := by
            constructor
            · intro k hk
              simp only [Finset.mem_filter] at hk ⊢
              exact ⟨hk.1, sLT_trans hk.2 hltrue⟩
            · intro hcon
              have hlin : l ∈ (Finset.range g.nodes.length).filter
                  (fun k => sLT (scoreAt sc k) (scoreAt sc i) = true) := by
                simp only [Finset.mem_filter, Finset.mem_range]
                exact ⟨hllt, hltrue⟩
              have := hcon hlin
              simp only [Finset.mem_filter] at this
              rw [sLT_irrefl] at this
              exact Bool.false_ne_true this.2
          have hcard2 : ((Finset.range g.nodes.length).filter
              (fun k => sLT (scoreAt sc k) (scoreAt sc l) = true)).card < n := by
            have := Finset.card_lt_card hsub
            omega
          obtain ⟨p, hp1, hp2⟩ := ih l (acc ++ [pointAt g l]) hllt
            (by rw [hl2]; simp) hcard2 (by simp)
          exact ⟨p, by rw [hstep]; exact hp1, hp2⟩
      · have hq0 : q = 0 := by
          by_cases hp : pointAt g i = s
          · have h1 := hseed0 i hilt hp
            rw [hsi] at h1
            exact Option.some_inj.mp h1
          · exact absurd (hpos i hilt hp q hsi) hqpos
        subst hq0
        have hps : pointAt g i = s := by
          by_contra hp
          exact absurd (hpos i hilt hp 0 hsi) (by simp)
        have hsg : sGT0 (scoreAt sc i) = false := by
          rw [hsi]; simp [sGT0]
        refine ⟨acc, ?_, by rw [hlast, hps]⟩
        simp only [pathWalkLoop, hsg]
        rfl

/-- Claim C2 (corrected).  For a well-formed graph whose edges are
    symmetric, whose edge costs under f are positive, and carrying exactly
    one node at the seed point, rl_dijkstra_score terminates and: the seed
    node scores 0; every reachable non-seed node scores finite positive;
    every finite nonzero scored node has a lowest scored neighbour of
    strictly smaller score; and the descending walk through
    rl_graph_lowest_scored_neighbor from any scored node ends at the seed
    point.  (The original claim omits edge symmetry, which the descent
    property needs; a one-way edge leaves a scored node with no scored
    neighbour, see the counterexample.) -/
theorem C2_dijkstra_descent (g : RL_Graph) (s : ℚ × ℚ) (f : ℚ × ℚ → ℚ × ℚ → ℚ)
    (hWF : g.WF) (hsym : EdgeSymm g) (hpos : EdgePos g f) (hseed : UniqueSeed g s) :
    ∃ sc, rl_dijkstra_score g s f = some sc ∧
      (∀ i, i < g.nodes.length → pointAt g i = s → scoreAt sc i = some 0) ∧
      (∀ i, ReachableFrom g s i → pointAt g i ≠ s →
        ∃ q, scoreAt sc i = some q ∧ 0 < q) ∧
      (∀ i, i < g.nodes.length → ∀ q, scoreAt sc i = some q → 0 < q →
        ∃ j r, rl_graph_lowest_scored_neighbor g sc i = some (some j) ∧
          j ∈ nbrs g i ∧ scoreAt sc j = some r ∧ r < q) ∧
      (∀ i, i < g.nodes.length → scoreAt sc i ≠ none →
        ∃ p, pathWalkLoop g sc (g.nodes.length + 1) i [pointAt g i] = some p ∧
          p.getLast? = some s) := by
  obtain ⟨sc, hEq, hLen, hInv, hCl⟩ := rl_dijkstra_score_spec hWF hsym hpos hseed
  have hseed' : ∀ i, i < g.nodes.length → pointAt g i = s →
      scoreAt sc i = some 0 := hInv.seed
  have hpos' : ∀ i, i < g.nodes.length → pointAt g i ≠ s → ∀ q,
      scoreAt sc i = some q → 0 < q := hInv.pos
  have hwit' : ∀ i, i < g.nodes.length → ∀ q, scoreAt sc i = some q → 0 < q →
      ∃ j, j ∈ nbrs g i ∧ ∃ r, scoreAt sc j = some r ∧ r < q := hInv.wit
  have hcl' : ∀ i, i < g.nodes.length → scoreAt sc i ≠ none →
      i ∈ ([] : List Nat) ∨ ∀ j ∈ nbrs g i, scoreAt sc j ≠ none := hCl
  refine ⟨sc, hEq, hseed', ?_, ?_, ?_⟩
  · have hreach : ∀ i, ReachableFrom g s i →
        i < g.nodes.length ∧ scoreAt sc i ≠ none := by
      intro i h
      induction h with
      | seed i hi hp =>
        refine ⟨hi, ?_⟩
        rw [hseed' i hi hp]
        simp
      | step i j hr hj ihr =>
        obtain ⟨hilt, hfin⟩ := ihr
        refine ⟨nbrs_lt hWF hilt hj, ?_⟩
        rcases hcl' i hilt hfin with hmem | hnb
        · exact absurd hmem (List.not_mem_nil i)
        · exact hnb j hj
    intro i hri hp
    obtain ⟨hilt, hfin⟩ := hreach i hri
    cases hq : scoreAt sc i with
    | none => exact absurd hq hfin
    | some q => exact ⟨q, rfl, hpos' i hilt hp q hq⟩
  · intro i hilt q hq hqpos
    obtain ⟨j, hj, r, hr, hrq⟩ := hwit' i hilt q hq hqpos
    cases hnb : nbrs g i with
    | nil => rw [hnb] at hj; exact absurd hj (by simp)
    | cons j0 rest =>
      obtain ⟨l, hlo, hlmem, hlmin⟩ := lowestLoop_min_of_cons sc j0 rest
      rw [hnb] at hj
      have hminj := hlmin j hj
      rw [hr] at hminj
      obtain ⟨r2, hl2, hr2⟩ := sLT_false_some hminj
      refine ⟨l, r2, ?_, hlmem, hl2, lt_of_le_of_lt hr2 hrq⟩
      unfold rl_graph_lowest_scored_neighbor
      rw [hnb, hlo]
      simp [hl2]
  · intro i hilt hfin
    refine pathWalk_reaches hWF hseed' hpos' hwit' (g.nodes.length + 1) i
      [pointAt g i] hilt hfin ?_ (by simp)
    have h1 := Finset.card_filter_le (Finset.range g.nodes.length)
      (fun k => sLT (scoreAt sc k) (scoreAt sc i) = true)
    rw [Finset.card_range] at h1
    omega

/-- Two nodes at distinct points joined by a symmetric edge: the smallest
    graph exercising every clause of the corrected claim. -/
def gC2w : RL_Graph :=
  ⟨[⟨((0 : ℚ), (0 : ℚ)), [1]⟩, ⟨((1 : ℚ), (0 : ℚ)), [0]⟩]⟩

theorem C2_dijkstra_descent_witness :
    RL_Graph.WF gC2w ∧ EdgeSymm gC2w ∧ EdgePos gC2w rl_distance_manhattan ∧
      UniqueSeed gC2w ((0 : ℚ), (0 : ℚ)) ∧
      (∃ sc, rl_dijkstra_score gC2w ((0 : ℚ), (0 : ℚ)) rl_distance_manhattan =
          some sc ∧
        (∀ i, i < gC2w.nodes.length → pointAt gC2w i = ((0 : ℚ), (0 : ℚ)) →
          scoreAt sc i = some 0) ∧
        (∀ i, ReachableFrom gC2w ((0 : ℚ), (0 : ℚ)) i →
          pointAt gC2w i ≠ ((0 : ℚ), (0 : ℚ)) → ∃ q, scoreAt sc i = some q ∧ 0 < q) ∧
        (∀ i, i < gC2w.nodes.length → ∀ q, scoreAt sc i = some q → 0 < q →
          ∃ j r, rl_graph_lowest_scored_neighbor gC2w sc i = some (some j) ∧
            j ∈ nbrs gC2w i ∧ scoreAt sc j = some r ∧ r < q) ∧
        (∀ i, i < gC2w.nodes.length → scoreAt sc i ≠ none →
          ∃ p, pathWalkLoop gC2w sc (gC2w.nodes.length + 1) i [pointAt gC2w i] =
              some p ∧ p.getLast? = some ((0 : ℚ), (0 : ℚ)))) :=
  ⟨by unfold RL_Graph.WF; decide, by unfold EdgeSymm; decide,
    by unfold EdgePos; with_unfolding_all decide, ⟨0, by decide⟩,
    C2_dijkstra_descent gC2w ((0 : ℚ), (0 : ℚ)) rl_distance_manhattan
      (by unfold RL_Graph.WF; decide) (by unfold EdgeSymm; decide)
      (by unfold EdgePos; with_unfolding_all decide) ⟨0, by decide⟩⟩

/-- Two nodes with a one-way edge from the seed: the shape the original
    claim quantifies over but the code does not serve. -/
def gC2x : RL_Graph :=
  ⟨[⟨((0 : ℚ), (0 : ℚ)), [1]⟩, ⟨((1 : ℚ), (0 : ℚ)), []⟩]⟩

/-- Counterexample to the original claim C2: on a graph with a one-way edge
    out of the seed, node 1 ends with the finite nonzero score 1 yet has no
    neighbour at all, so no neighbour of strictly smaller score exists and
    rl_graph_lowest_scored_neighbor faults on it. -/
theorem C2_counterexample :
    pointAt gC2x 0 = ((0 : ℚ), (0 : ℚ)) ∧
      rl_dijkstra_score gC2x ((0 : ℚ), (0 : ℚ)) rl_distance_manhattan =
        some [some 0, some 1] ∧
      scoreAt [some 0, some 1] 1 = some 1 ∧ (1 : ℚ) ≠ 0 ∧
      nbrs gC2x 1 = [] ∧
      rl_graph_lowest_scored_neighbor gC2x [some 0, some 1] 1 = none := by
  refine ⟨by decide, by with_unfolding_all decide, by decide, by decide, by decide,
    by with_unfolding_all decide⟩

end DijkstraProof

/-! ### Field of view (claims C1, C10)

The shadowcasting scanner works on integer columns and slopes; the float
coordinates it passes around are exact small integers, modelled as Int.
The euclidian range test sqrt(dx^2+dy^2) <= radius is modelled by the
equivalent squared comparison (radius >= 0), with the radius < 0 escape
first, as in rl_fovmap_in_range_f.  The recursion fuel keeps
fuel + x > RL_MAX_RECURSION = 100: when it runs out the column index has
already passed the for-loop bound, so the cut-off is exactly the C one. -/

def RL_TileVisible : Nat := 1
def RL_TileSeen : Nat := 2

def opaqueZ (m : RL_Map) (x y : Int) : Bool :=
  if 0 ≤ x && 0 ≤ y then rl_map_is_opaque m x.toNat y.toNat else true

def fovInRange (radius : ℤ) (ox oy : Nat) (tx ty : ℤ) : Bool :=
  decide (radius < 0) ||
  decide ((tx - ox) * (tx - ox) + (ty - oy) * (ty - oy) ≤ radius * radius)

def rl_fovmap_mark_visible (m : RL_Map) (vis : List Nat) (tx ty : ℤ) : List Nat :=
  if inBoundsZ m tx ty then vis.set (tx.toNat + ty.toNat * m.width) RL_TileVisible else vis

def octantXY (ox oy x y octant : Nat) : ℤ × ℤ :=
  match octant with
  | 0 => ((ox : ℤ) + x, (oy : ℤ) - y)
  | 1 => ((ox : ℤ) + y, (oy : ℤ) - x)
  | 2 => ((ox : ℤ) - y, (oy : ℤ) - x)
  | 3 => ((ox : ℤ) - x, (oy : ℤ) - y)
  | 4 => ((ox : ℤ) - x, (oy : ℤ) + y)
  | 5 => ((ox : ℤ) - y, (oy : ℤ) + x)
  | 6 => ((ox : ℤ) + y, (oy : ℤ) + x)
  | _ => ((ox : ℤ) + x, (oy : ℤ) + y)

inductive FovStep where
  | ret (vis : List Nat)
  | brk (vis : List Nat) (top newBottom : Nat × Nat)
  | cont (vis : List Nat) (top : Nat × Nat) (wasOpaque : ℤ)

inductive FovInnerRes where
  | ret (vis : List Nat)
  | brk (vis : List Nat) (top newBottom : Nat × Nat)
  | done (vis : List Nat) (top : Nat × Nat) (wasOpaque : ℤ)

def fovStep (m : RL_Map) (radius : ℤ) (ox oy octant x0 x topY bottomY : Nat)
    (bottom : Nat × Nat) (recurse : Nat × Nat → Nat × Nat → List Nat → List Nat)
    (y : Nat) (top : Nat × Nat) (wasOpaque : ℤ) (vis : List Nat) : FovStep :=
  let t := octantXY ox oy x y octant
  let inR := fovInRange radius ox oy t.1 t.2
  let vis1 :=
    if inR then
      if (y ≠ topY ∨ top.2 * y ≤ top.1 * x) ∧ (y ≠ bottomY ∨ bottom.1 * x ≤ bottom.2 * y)
      then rl_fovmap_mark_visible m vis t.1 t.2
      else rl_fovmap_mark_visible m vis t.1 t.2
    else vis
  if x = x0 ∧ inR = false then .ret vis1
  else
    let isO := !inR || opaqueZ m t.1 t.2
    if isO then
      if wasOpaque = 0 then
        let nb : Nat × Nat := (2 * y + 1, 2 * x - 1)
        if !inR || y = bottomY then .brk vis1 top nb
        else .cont (recurse top nb vis1) top 1
      else .cont vis1 top 1
    else
      .cont vis1 (if 0 < wasOpaque then (2 * y + 1, 2 * x + 1) else top) 0

def fovInner (m : RL_Map) (radius : ℤ) (ox oy octant x0 x topY bottomY : Nat)
    (bottom : Nat × Nat) (recurse : Nat × Nat → Nat × Nat → List Nat → List Nat) :
    Nat → Nat × Nat → ℤ → List Nat → FovInnerRes
  | 0, top, w, vis =>
    if 0 < bottomY then .done vis top w
    else
      match fovStep m radius ox oy octant x0 x topY bottomY bottom recurse 0 top w vis with
      | .ret v => .ret v
      | .brk v t nb => .brk v t nb
      | .cont v t w2 => .done v t w2
  | y + 1, top, w, vis =>
    if y + 1 < bottomY then .done vis top w
    else
      match fovStep m radius ox oy octant x0 x topY bottomY bottom recurse (y + 1) top w vis with
      | .ret v => .ret v
      | .brk v t nb => .brk v t nb
      | .cont v t w2 => fovInner m radius ox oy octant x0 x topY bottomY bottom recurse y t w2 v

def fovOuter (m : RL_Map) (radius : ℤ) (ox oy octant : Nat) :
    Nat → Nat → Nat → Nat × Nat → Nat × Nat → List Nat → List Nat
  | 0, _, _, _, _, vis => vis
  | fuel + 1, x0, x, top, bottom, vis =>
    if 100 ≤ x then vis
    else
      let topY := if top.2 = 1 then x else ((2 * x + 1) * top.1 + top.2 - 1) / (top.2 * 2)
      let bottomY := if bottom.1 = 0 then 0 else ((2 * x - 1) * bottom.1 + bottom.2) / (bottom.2 * 2)
      match fovInner m radius ox oy octant x0 x topY bottomY bottom
          (fun t b v => fovOuter m radius ox oy octant fuel (x + 1) (x + 1) t b v)
          topY top (-1) vis with
      | .ret v => v
      | .brk v t nb => fovOuter m radius ox oy octant fuel x0 (x + 1) t nb v
      | .done v t w =>
          if w = 0 then fovOuter m radius ox oy octant fuel x0 (x + 1) t bottom v else v

def rl_fov_calculate_ex (m : RL_Map) (radius : ℤ) (ox oy : Nat) (vis : List Nat) : List Nat :=
  let vis0 := rl_fovmap_mark_visible m vis (ox : ℤ) (oy : ℤ)
  (List.range 8).foldl
    (fun v oct => fovOuter m radius ox oy oct 101 1 1 (1, 1) (0, 1) v) vis0

def rl_fov_calculate (fov : List Nat) (m : RL_Map) (x y : Nat) (radius : ℤ) : List Nat :=
  if !rl_map_in_bounds m x y then fov
  else
    let demoted := (List.range fov.length).map
      (fun i => if i < m.width * m.height && fov.getD i 0 == RL_TileVisible
        then RL_TileSeen else fov.getD i 0)
    rl_fov_calculate_ex m radius x y demoted

def rl_fov_is_visible (m : RL_Map) (vis : List Nat) (x y : Nat) : Bool :=
  if !rl_map_in_bounds m x y then false
  else vis.getD (x + y * m.width) 0 == RL_TileVisible


/-- An 11 by 11 all-Room map with a single Rock at (5,4). -/
def mapFovAsym : RL_Map :=
  ⟨11, 11, (List.range 121).map (fun i =>
    if i = 4 * 11 + 5 then RL_TileRock else RL_TileRoom)⟩

/-- A fully unseen 11 by 11 visibility grid. -/
def visEmpty121 : List Nat := (List.range 121).map (fun _ => 0)

set_option maxRecDepth 4096 in
/-- Claim C1 (code bug).  The symmetric-FOV guard at roguelike.h lines
    2428-2432 has identical then and else branches (both mark the cell), so
    the opposite-corner inequality is never enforced and visibility is not
    symmetric: on an 11 by 11 room map with a single rock at (5,4), the
    cell (4,4) is visible from (6,5) at radius 3, but (6,5) is not visible
    from (4,4) at the same radius. -/
theorem C1_fov_symmetry_violation :
    rl_fov_is_visible mapFovAsym
      (rl_fov_calculate visEmpty121 mapFovAsym 6 5 3) 4 4 = true ∧
      rl_fov_is_visible mapFovAsym
        (rl_fov_calculate visEmpty121 mapFovAsym 4 4 3) 6 5 = false := by
  refine ⟨by decide, by decide⟩

/-- Claim C10 (confirmed).  With an out-of-bounds origin rl_fov_calculate
    returns before the demotion loop and before any marking, leaving the
    visibility grid untouched. -/
theorem C10_fov_out_of_bounds_noop (fov : List Nat) (m : RL_Map) (x y : Nat)
    (radius : ℤ) (h : rl_map_in_bounds m x y = false) :
    rl_fov_calculate fov m x y radius = fov := by
  unfold rl_fov_calculate
  rw [h]
  rfl

theorem C10_fov_out_of_bounds_noop_witness :
    rl_map_in_bounds map1x1 5 0 = false ∧
      rl_fov_calculate [RL_TileVisible] map1x1 5 0 3 = [RL_TileVisible] :=
  ⟨by decide, C10_fov_out_of_bounds_noop [RL_TileVisible] map1x1 5 0 3 (by decide)⟩

/-! ### Maze generation (claim C4)

rl_mapgen_maze_ex runs a growing-tree carver over a heap created with a
NULL comparator; rl_heap_create substitutes the noop comparison that
always answers 1, so insertion appends without sifting and popping removes
the root.  The RNG RL_RNG_F is a parameter: a call counter is threaded
through so each call draws rng k lo hi, with the hypothesis that results
stay within [lo, hi].  The while loop runs until the heap drains; the fuel
2*w*h+2 dominates the loop potential (heap length plus twice the number of
uncarved even-parity cells), as proved below. -/

def noopCmp {α : Type} : α → α → Bool := fun _ _ => true

def mazeNeighbors (tiles : List Nat) (W : Nat) (p : Nat × Nat) (sx mx sy my : Nat) :
    List (Nat × Nat) :=
  (([((p.1 : ℤ) - 2, (p.2 : ℤ)), ((p.1 : ℤ) + 2, (p.2 : ℤ)),
     ((p.1 : ℤ), (p.2 : ℤ) - 2), ((p.1 : ℤ), (p.2 : ℤ) + 2)]).filter
    (fun c => decide ((sx : ℤ) ≤ c.1) && decide (c.1 < (mx : ℤ)) &&
      decide ((sy : ℤ) ≤ c.2) && decide (c.2 < (my : ℤ)) &&
      (tiles.getD ((c.1 + c.2 * (W : ℤ)).toNat) 0 == RL_TileRock))).map
    (fun c => (c.1.toNat, c.2.toNat))

def mazeLoop (rng : Nat → Nat → Nat → Nat) (W sx mx sy my : Nat) :
    Nat → List Nat → List (Nat × Nat) → Nat → List Nat
  | 0, tiles, _, _ => tiles
  | fuel + 1, tiles, heap, k =>
    match rl_heap_pop noopCmp heap with
    | (none, _) => tiles
    | (some p, heap2) =>
      let ns := mazeNeighbors tiles W p sx mx sy my
      if ns.length = 0 then mazeLoop rng W sx mx sy my fuel tiles heap2 k
      else
        let i := rng k 0 (ns.length - 1)
        let q := ns.getD i (0, 0)
        let wx := if q.1 < p.1 then q.1 + 1 else if p.1 < q.1 then q.1 - 1 else q.1
        let wy := if q.2 < p.2 then q.2 + 1 else if p.2 < q.2 then q.2 - 1 else q.2
        let tiles2 := (tiles.set (wy * W + wx) RL_TileCorridor).set
          (q.2 * W + q.1) RL_TileCorridor
        mazeLoop rng W sx mx sy my fuel tiles2
          (rl_heap_insert noopCmp (rl_heap_insert noopCmp heap2 p) q) (k + 1)

def rl_mapgen_maze_ex (rng : Nat → Nat → Nat → Nat) (m : RL_Map)
    (ox oy w h : Nat) : RL_Map :=
  let W := m.width
  let tiles1 := (List.range m.tiles.length).map
    (fun idx => if ox ≤ idx % W ∧ idx % W < ox + w ∧ oy ≤ idx / W ∧ idx / W < oy + h
      then RL_TileRock else m.tiles.getD idx 0)
  let x0 := rng 0 ox (ox + w - 1)
  let y0 := rng 1 oy (oy + h - 1)
  let tiles2 := tiles1.set (y0 * W + x0) RL_TileCorridor
  ⟨m.width, m.height,
    mazeLoop rng W ox (ox + w) oy (oy + h) (2 * (m.width * m.height) + 2)
      tiles2 (rl_heap_insert noopCmp [] (x0, y0)) 2⟩

def rl_mapgen_maze (rng : Nat → Nat → Nat → Nat) (m : RL_Map) : RL_Map :=
  let cleared : RL_Map := ⟨m.width, m.height,
    (List.range m.tiles.length).map (fun _ => RL_TileRock)⟩
  rl_mapgen_maze_ex rng cleared 1 1 (m.width - 2) (m.height - 2)

/-- A cell (x, y) of the map holding a Corridor tile. -/
def corridorCell (m : RL_Map) (c : Nat × Nat) : Prop :=
  c.1 < m.width ∧ c.2 < m.height ∧ tileAt m c.1 c.2 = RL_TileCorridor

instance (m : RL_Map) (c : Nat × Nat) : Decidable (corridorCell m c) := by
  unfold corridorCell; infer_instance

/-- Orthogonal grid adjacency (the four cardinal neighbours). -/
def orthAdjacent (a b : Nat × Nat) : Prop :=
  (a.1 = b.1 ∧ (a.2 + 1 = b.2 ∨ b.2 + 1 = a.2)) ∨
  (a.2 = b.2 ∧ (a.1 + 1 = b.1 ∨ b.1 + 1 = a.1))

/-- The graph of Corridor cells under orthogonal adjacency. -/
def mazeGraph (m : RL_Map) : SimpleGraph (Nat × Nat) where
  Adj a b := corridorCell m a ∧ corridorCell m b ∧ orthAdjacent a b
  symm := by
    intro a b h
    obtain ⟨ha, hb, hadj⟩ := h
    refine ⟨hb, ha, ?_⟩
    unfold orthAdjacent at hadj ⊢
    rcases hadj with ⟨h1, h2⟩ | ⟨h1, h2⟩
    · exact Or.inl ⟨h1.symm, h2.symm⟩
    · exact Or.inr ⟨h1.symm, h2.symm⟩
  loopless := by
    intro a h
    obtain ⟨_, _, hadj⟩ := h
    unfold orthAdjacent at hadj
    rcases hadj with ⟨_, h2⟩ | ⟨_, h2⟩ <;> omega

/-- In any cycle the base vertex has two distinct neighbours, both on the
    cycle. -/
theorem cycle_two_neighbors {V : Type} {G : SimpleGraph V} {v : V}
    (c : G.Walk v v) (hc : c.IsCycle) :
    ∃ a b, a ≠ b ∧ G.Adj v a ∧ G.Adj v b ∧ a ∈ c.support ∧ b ∈ c.support := by
  obtain ⟨u, hu, p, rfl⟩ := SimpleGraph.Walk.not_nil_iff.mp hc.not_nil
  have hlen := hc.three_le_length
  rw [SimpleGraph.Walk.length_cons] at hlen
  have hpnil : ¬ p.Nil := by
    rw [SimpleGraph.Walk.nil_iff_length_eq]
    omega
  have hrnil : ¬ p.reverse.Nil := by
    rw [SimpleGraph.Walk.nil_iff_length_eq, SimpleGraph.Walk.length_reverse]
    rw [SimpleGraph.Walk.nil_iff_length_eq] at hpnil
    omega
  obtain ⟨b, hb, p2, hp2⟩ := SimpleGraph.Walk.not_nil_iff.mp hrnil
  have hbsup : b ∈ p.support := by
    have h1 : b ∈ p.reverse.support := by
      rw [hp2, SimpleGraph.Walk.support_cons]
      exact List.mem_cons_of_mem _ (SimpleGraph.Walk.start_mem_support p2)
    rw [SimpleGraph.Walk.support_reverse] at h1
    simpa using h1
  refine ⟨u, b, ?_, hu, hb, ?_, ?_⟩
  · intro hab
    subst hab
    have hnd := hc.edges_nodup
    rw [SimpleGraph.Walk.edges_cons, List.nodup_cons] at hnd
    refine hnd.1 ?_
    have h1 : p.reverse.edges = s(v, u) :: p2.edges := by
      rw [hp2, SimpleGraph.Walk.edges_cons]
    rw [SimpleGraph.Walk.edges_reverse] at h1
    have h2 : s(v, u) ∈ p.edges.reverse := by rw [h1]; simp
    simpa using h2
  · rw [SimpleGraph.Walk.support_cons]
    exact List.mem_cons_of_mem _ (SimpleGraph.Walk.start_mem_support p)
  · rw [SimpleGraph.Walk.support_cons]
    exact List.mem_cons_of_mem _ hbsup

/-- Membership in the support of a closed walk is stable under rotation. -/
theorem mem_support_rotate {V : Type} [DecidableEq V] {G : SimpleGraph V} {v u z : V}
    (c : G.Walk v v) (hu : u ∈ c.support) (hz : z ∈ (c.rotate hu).support)
    (hzu : z ≠ u) : z ∈ c.support := by
  have h1 := SimpleGraph.Walk.support_rotate c hu
  rw [SimpleGraph.Walk.support_eq_cons (c.rotate hu)] at hz
  rcases List.mem_cons.mp hz with rfl | hz
  · exact absurd rfl hzu
  · have h2 : z ∈ c.support.tail := h1.mem_iff.mp hz
    rw [SimpleGraph.Walk.support_eq_cons c]
    exact List.mem_cons_of_mem _ h2

/-- Attaching a pendant path of two fresh vertices w and q to an acyclic
    graph keeps it acyclic: q is only adjacent to w, w only to p and q, and
    every edge avoiding both was already present. -/
theorem isAcyclic_pendant {V : Type} [DecidableEq V] {G G2 : SimpleGraph V} {p q w : V}
    (hq : ∀ a, G2.Adj q a → a = w)
    (hw : ∀ a, G2.Adj w a → a = p ∨ a = q)
    (hold : ∀ a b, G2.Adj a b → a ≠ q → a ≠ w → b ≠ q → b ≠ w → G.Adj a b)
    (hG : G.IsAcyclic) (hqw : q ≠ w) : G2.IsAcyclic := by
  intro v c hc
  by_cases hqmem : q ∈ c.support
  · have hc2 := hc.rotate hqmem
    obtain ⟨a, b, hab, ha, hb, _, _⟩ := cycle_two_neighbors _ hc2
    have h1 := hq a ha
    have h2 := hq b hb
    rw [h1, h2] at hab
    exact hab rfl
  · by_cases hwmem : w ∈ c.support
    · have hc2 := hc.rotate hwmem
      obtain ⟨a, b, hab, ha, hb, hamem, hbmem⟩ := cycle_two_neighbors _ hc2
      rcases hw a ha with rfl | rfl
      · rcases hw b hb with rfl | rfl
        · exact hab rfl
        · exact hqmem (mem_support_rotate c hwmem hbmem hqw)
      · exact hqmem (mem_support_rotate c hwmem hamem hqw)
    · have hedge : ∀ e ∈ c.edges, e ∈ G.edgeSet := by
        intro e he
        induction e with
        | h a b =>
          have hadj := SimpleGraph.Walk.adj_of_mem_edges c he
          have hasup := SimpleGraph.Walk.fst_mem_support_of_mem_edges c he
          have hbsup := SimpleGraph.Walk.snd_mem_support_of_mem_edges c he
          exact hold a b hadj (fun h => hqmem (h ▸ hasup)) (fun h => hwmem (h ▸ hasup))
            (fun h => hqmem (h ▸ hbsup)) (fun h => hwmem (h ▸ hbsup))
      exact hG (c.transfer G hedge) (hc.transfer hedge)

section MazeProof

theorem getD_set_self2 {α : Type} {l : List α} {j : Nat} (hj : j < l.length)
    (v d : α) : (l.set j v).getD j d = v := by
  rw [List.getD_eq_getElem _ _ (by simpa using hj)]
  simp [List.getElem_set_self]

theorem getD_set_ne2 {α : Type} {l : List α} {j k : Nat} (h : k ≠ j)
    (v d : α) : (l.set j v).getD k d = l.getD k d := by
  by_cases hlen : k < l.length
  · rw [List.getD_eq_getElem _ _ (by simpa using hlen),
      List.getD_eq_getElem _ _ hlen]
    rw [List.getElem_set]
    rw [if_neg (show ¬ j = k from fun hh => h hh.symm)]
  · have h1 : l.length ≤ k := by omega
    rw [List.getD_eq_default _ _ (by simp only [List.length_set]; exact h1),
      List.getD_eq_default _ _ h1]

/-- Row-major cell indices are injective on in-row coordinates. -/
theorem cell_index_inj {W : Nat} {a b : Nat × Nat} (ha : a.1 < W) (hb : b.1 < W)
    (h : a.2 * W + a.1 = b.2 * W + b.1) : a = b := by
  have h1 : (a.2 * W + a.1) % W = a.1 := by
    rw [show a.2 * W = W * a.2 from Nat.mul_comm _ _, Nat.mul_add_mod]
    exact Nat.mod_eq_of_lt ha
  have h2 : (b.2 * W + b.1) % W = b.1 := by
    rw [show b.2 * W = W * b.2 from Nat.mul_comm _ _, Nat.mul_add_mod]
    exact Nat.mod_eq_of_lt hb
  have hx : a.1 = b.1 := by rw [← h1, ← h2, h]
  have hy : a.2 = b.2 := by
    have hW : 0 < W := by omega
    have := h
    rw [hx] at this
    have h3 : a.2 * W = b.2 * W := by omega
    exact Nat.eq_of_mul_eq_mul_right hW h3
  exact Prod.ext hx hy

/-- Setting one cell's tile to Corridor grows the corridor set by that cell. -/
theorem corridor_set_iff {W H : Nat} {tiles : List Nat} (hlen : tiles.length = W * H)
    {b : Nat × Nat} (hb1 : b.1 < W) (hb2 : b.2 < H) (c : Nat × Nat) :
    corridorCell ⟨W, H, tiles.set (b.2 * W + b.1) RL_TileCorridor⟩ c ↔
      corridorCell ⟨W, H, tiles⟩ c ∨ c = b := by
  have hidx : b.2 * W + b.1 < tiles.length := by
    rw [hlen]
    calc b.2 * W + b.1 < b.2 * W + W := by omega
    _ = (b.2 + 1) * W := by ring
    _ ≤ H * W := Nat.mul_le_mul_right W (by omega)
    _ = W * H := Nat.mul_comm H W
  constructor
  · rintro ⟨h1, h2, h3⟩
    by_cases hcb : c = b
    · exact Or.inr hcb
    · refine Or.inl ⟨h1, h2, ?_⟩
      unfold tileAt at h3 ⊢
      rwa [getD_set_ne2 (fun hh => hcb (cell_index_inj h1 hb1 hh)) _ _] at h3
  · rintro (⟨h1, h2, h3⟩ | rfl)
    · by_cases hcb : c = b
      · subst hcb
        refine ⟨h1, h2, ?_⟩
        unfold tileAt
        rw [getD_set_self2 hidx]
      · refine ⟨h1, h2, ?_⟩
        unfold tileAt at h3 ⊢
        rwa [getD_set_ne2 (fun hh => hcb (cell_index_inj h1 hb1 hh)) _ _]
    · refine ⟨hb1, hb2, ?_⟩
      unfold tileAt
      rw [getD_set_self2 hidx]

/-- The candidate list of rl_mapgen_maze_unvisited_neighbors: members are
    in the window, hold Rock, and sit two steps from p along one axis. -/
theorem mazeNeighbors_mem {tiles : List Nat} {W sx mx sy my : Nat} {p q : Nat × Nat}
    (h : q ∈ mazeNeighbors tiles W p sx mx sy my) :
    sx ≤ q.1 ∧ q.1 < mx ∧ sy ≤ q.2 ∧ q.2 < my ∧
      tiles.getD (q.2 * W + q.1) 0 = RL_TileRock ∧
      ((q.1 + 2 = p.1 ∧ q.2 = p.2) ∨ (q.1 = p.1 + 2 ∧ q.2 = p.2) ∨
        (q.1 = p.1 ∧ q.2 + 2 = p.2) ∨ (q.1 = p.1 ∧ q.2 = p.2 + 2)) := by
  unfold mazeNeighbors at h
  rw [List.mem_map] at h
  obtain ⟨c, hc, rfl⟩ := h
  obtain ⟨cx, cy⟩ := c
  rw [List.mem_filter] at hc
  obtain ⟨hmem, hpred⟩ := hc
  dsimp only at hmem hpred ⊢
  simp only [Bool.and_eq_true, decide_eq_true_eq, beq_iff_eq] at hpred
  obtain ⟨⟨⟨⟨hsx, hmx⟩, hsy⟩, hmy⟩, htile⟩ := hpred
  obtain ⟨nx, rfl⟩ : ∃ n : Nat, cx = (n : ℤ) :=
    ⟨cx.toNat, (Int.toNat_of_nonneg (by omega)).symm⟩
  obtain ⟨ny, rfl⟩ : ∃ n : Nat, cy = (n : ℤ) :=
    ⟨cy.toNat, (Int.toNat_of_nonneg (by omega)).symm⟩
  rw [show ((nx : ℤ) + (ny : ℤ) * (W : ℤ)) = ((nx + ny * W : Nat) : ℤ) by push_cast; ring,
    Int.toNat_natCast] at htile
  simp only [Int.toNat_natCast]
  rw [show ny * W + nx = nx + ny * W from Nat.add_comm _ _]
  refine ⟨by omega, by omega, by omega, by omega, htile, ?_⟩
  simp only [List.mem_cons, List.mem_singleton, Prod.mk.injEq] at hmem
  rcases hmem with ⟨h1, h2⟩ | ⟨h1, h2⟩ | ⟨h1, h2⟩ | ⟨h1, h2⟩ | h
  · left; constructor <;> omega
  · right; left; constructor <;> omega
  · right; right; left; constructor <;> omega
  · right; right; right; constructor <;> omega
  · simp at h

/-- Both-axes parity agreement with the start cell. -/
def evenBoth (x0 y0 : Nat) (c : Nat × Nat) : Prop :=
  c.1 % 2 = x0 % 2 ∧ c.2 % 2 = y0 % 2

/-- The carving window of rl_mapgen_maze: the interior ring. -/
def inMazeRegion (W H : Nat) (c : Nat × Nat) : Prop :=
  1 ≤ c.1 ∧ c.1 < W - 1 ∧ 1 ≤ c.2 ∧ c.2 < H - 1

/-- Tile-level loop invariant: corridors stay inside the window, carry the
    parity classification with carved walls flanked by corridor cells, and
    form a tree rooted at the start cell. -/
structure MazeTileInv (W H x0 y0 : Nat) (tiles : List Nat) : Prop where
  len : tiles.length = W * H
  start : corridorCell ⟨W, H, tiles⟩ (x0, y0)
  dom : ∀ c, corridorCell ⟨W, H, tiles⟩ c → inMazeRegion W H c
  par : ∀ c, corridorCell ⟨W, H, tiles⟩ c →
      evenBoth x0 y0 c ∨
      (c.1 % 2 ≠ x0 % 2 ∧ c.2 % 2 = y0 % 2 ∧
        corridorCell ⟨W, H, tiles⟩ (c.1 - 1, c.2) ∧
        corridorCell ⟨W, H, tiles⟩ (c.1 + 1, c.2)) ∨
      (c.1 % 2 = x0 % 2 ∧ c.2 % 2 ≠ y0 % 2 ∧
        corridorCell ⟨W, H, tiles⟩ (c.1, c.2 - 1) ∧
        corridorCell ⟨W, H, tiles⟩ (c.1, c.2 + 1))
  con : ∀ c, corridorCell ⟨W, H, tiles⟩ c →
      (mazeGraph ⟨W, H, tiles⟩).Reachable c (x0, y0)
  acy : (mazeGraph ⟨W, H, tiles⟩).IsAcyclic

/-- Heap invariant: queued cells are carved start-parity cells. -/
def MazeHeapInv (W H x0 y0 : Nat) (tiles : List Nat) (heap : List (Nat × Nat)) : Prop :=
  ∀ p ∈ heap, corridorCell ⟨W, H, tiles⟩ p ∧ evenBoth x0 y0 p

/-- Loop potential: heap length plus twice the uncarved start-parity cells. -/
def mazePhi (W x0 y0 : Nat) (tiles : List Nat) (heap : List (Nat × Nat)) : Nat :=
  heap.length + 2 * ((Finset.range tiles.length).filter
    (fun i => tiles.getD i 0 ≠ RL_TileCorridor ∧
      (i % W) % 2 = x0 % 2 ∧ (i / W) % 2 = y0 % 2)).card

/-- A start-parity cell still holding Rock cannot have a carved neighbour:
    any adjacent corridor cell would be a carved wall flanked by corridor
    cells, one of which is the Rock cell itself. -/
theorem rock_neighbor_not_corridor {W H x0 y0 : Nat} {tiles : List Nat}
    (hT : MazeTileInv W H x0 y0 tiles) {q a : Nat × Nat}
    (hqpar : evenBoth x0 y0 q) (hqrock : ¬ corridorCell ⟨W, H, tiles⟩ q)
    (horth : orthAdjacent q a) (hac : corridorCell ⟨W, H, tiles⟩ a) : False := by
  obtain ⟨hq1, hq2⟩ := hqpar
  unfold orthAdjacent at horth
  rcases hT.par a hac with ⟨ha1, ha2⟩ | ⟨ha1, ha2, hf1, hf2⟩ | ⟨ha1, ha2, hf1, hf2⟩ <;>
    rcases horth with ⟨e1, e2 | e2⟩ | ⟨e1, e2 | e2⟩
  · omega
  · omega
  · omega
  · omega
  · omega
  · omega
  · refine hqrock ?_
    have heq : q = (a.1 - 1, a.2) := Prod.ext (by omega) (by omega)
    rw [heq]
    exact hf1
  · refine hqrock ?_
    have heq : q = (a.1 + 1, a.2) := Prod.ext (by omega) (by omega)
    rw [heq]
    exact hf2
  · refine hqrock ?_
    have heq : q = (a.1, a.2 - 1) := Prod.ext (by omega) (by omega)
    rw [heq]
    exact hf1
  · refine hqrock ?_
    have heq : q = (a.1, a.2 + 1) := Prod.ext (by omega) (by omega)
    rw [heq]
    exact hf2
  · omega
  · omega

/-- One carve of the growing-tree loop: opening the wall cell w and the
    target cell q preserves the tile invariant; the corridor set grows by
    exactly w and q. -/
theorem maze_carve_step {W H x0 y0 : Nat} {tiles : List Nat} {p q w : Nat × Nat}
    (hT : MazeTileInv W H x0 y0 tiles)
    (hpc : corridorCell ⟨W, H, tiles⟩ p) (hppar : evenBoth x0 y0 p)
    (hqreg : inMazeRegion W H q)
    (hqrock : tiles.getD (q.2 * W + q.1) 0 = RL_TileRock)
    (hrel : (q.1 + 2 = p.1 ∧ q.2 = p.2 ∧ w = (q.1 + 1, q.2)) ∨
            (q.1 = p.1 + 2 ∧ q.2 = p.2 ∧ w = (q.1 - 1, q.2)) ∨
            (q.1 = p.1 ∧ q.2 + 2 = p.2 ∧ w = (q.1, q.2 + 1)) ∨
            (q.1 = p.1 ∧ q.2 = p.2 + 2 ∧ w = (q.1, q.2 - 1))) :
    MazeTileInv W H x0 y0
      ((tiles.set (w.2 * W + w.1) RL_TileCorridor).set (q.2 * W + q.1) RL_TileCorridor) ∧
    (∀ c, corridorCell ⟨W, H, tiles⟩ c → corridorCell
      ⟨W, H, (tiles.set (w.2 * W + w.1) RL_TileCorridor).set (q.2 * W + q.1) RL_TileCorridor⟩ c) ∧
    corridorCell
      ⟨W, H, (tiles.set (w.2 * W + w.1) RL_TileCorridor).set (q.2 * W + q.1) RL_TileCorridor⟩ q := by
  obtain ⟨hpreg1, hpreg2, hpreg3, hpreg4⟩ := hT.dom p hpc
  obtain ⟨hqreg1, hqreg2, hqreg3, hqreg4⟩ := hqreg
  have hqnc : ¬ corridorCell ⟨W, H, tiles⟩ q := by
    rintro ⟨_, _, h3⟩
    unfold tileAt at h3
    rw [hqrock] at h3
    exact absurd h3 (by unfold RL_TileRock RL_TileCorridor; omega)
  have hqpar : evenBoth x0 y0 q := by
    obtain ⟨hp1, hp2⟩ := hppar
    constructor <;>
      (rcases hrel with ⟨e1, e2, _⟩ | ⟨e1, e2, _⟩ | ⟨e1, e2, _⟩ | ⟨e1, e2, _⟩ <;> omega)
  have key : orthAdjacent q w ∧ orthAdjacent w p ∧ w ≠ q ∧ w ≠ p ∧ q ≠ p ∧
      inMazeRegion W H w ∧
      ((w.1 % 2 ≠ x0 % 2 ∧ w.2 % 2 = y0 % 2 ∧
        (((w.1 - 1, w.2) = q ∧ (w.1 + 1, w.2) = p) ∨
         ((w.1 - 1, w.2) = p ∧ (w.1 + 1, w.2) = q))) ∨
       (w.1 % 2 = x0 % 2 ∧ w.2 % 2 ≠ y0 % 2 ∧
        (((w.1, w.2 - 1) = q ∧ (w.1, w.2 + 1) = p) ∨
         ((w.1, w.2 - 1) = p ∧ (w.1, w.2 + 1) = q)))) := by
    obtain ⟨hp1, hp2⟩ := hppar
    obtain ⟨hq1, hq2⟩ := hqpar
    rcases hrel with ⟨e1, e2, rfl⟩ | ⟨e1, e2, rfl⟩ | ⟨e1, e2, rfl⟩ | ⟨e1, e2, rfl⟩
    · refine ⟨Or.inr ⟨rfl, by omega⟩, Or.inr ⟨by omega, by omega⟩,
        fun hh => by rw [Prod.mk.injEq] at hh; omega,
        fun hh => by rw [Prod.ext_iff] at hh; dsimp only at hh; omega,
        fun hh => by rw [Prod.ext_iff] at hh; omega,
        ⟨by omega, by omega, by omega, by omega⟩, ?_⟩
      exact Or.inl ⟨by omega, by omega,
        Or.inl ⟨Prod.ext (by omega) (by omega), Prod.ext (by omega) (by omega)⟩⟩
    · refine ⟨Or.inr ⟨rfl, by omega⟩, Or.inr ⟨by omega, by omega⟩,
        fun hh => by rw [Prod.mk.injEq] at hh; omega,
        fun hh => by rw [Prod.ext_iff] at hh; dsimp only at hh; omega,
        fun hh => by rw [Prod.ext_iff] at hh; omega,
        ⟨by omega, by omega, by omega, by omega⟩, ?_⟩
      exact Or.inl ⟨by omega, by omega,
        Or.inr ⟨Prod.ext (by omega) (by omega), Prod.ext (by omega) (by omega)⟩⟩
    · refine ⟨Or.inl ⟨rfl, by omega⟩, Or.inl ⟨by omega, by omega⟩,
        fun hh => by rw [Prod.mk.injEq] at hh; omega,
        fun hh => by rw [Prod.ext_iff] at hh; dsimp only at hh; omega,
        fun hh => by rw [Prod.ext_iff] at hh; omega,
        ⟨by omega, by omega, by omega, by omega⟩, ?_⟩
      exact Or.inr ⟨by omega, by omega,
        Or.inl ⟨Prod.ext (by omega) (by omega), Prod.ext (by omega) (by omega)⟩⟩
    · refine ⟨Or.inl ⟨rfl, by omega⟩, Or.inl ⟨by omega, by omega⟩,
        fun hh => by rw [Prod.mk.injEq] at hh; omega,
        fun hh => by rw [Prod.ext_iff] at hh; dsimp only at hh; omega,
        fun hh => by rw [Prod.ext_iff] at hh; omega,
        ⟨by omega, by omega, by omega, by omega⟩, ?_⟩
      exact Or.inr ⟨by omega, by omega,
        Or.inr ⟨Prod.ext (by omega) (by omega), Prod.ext (by omega) (by omega)⟩⟩
  obtain ⟨korthqw, korthwp, kwq, kwp, kqp, kwreg, kpar⟩ := key
  obtain ⟨kwreg1, kwreg2, kwreg3, kwreg4⟩ := kwreg
  have hc2 : ∀ c, corridorCell ⟨W, H,
      (tiles.set (w.2 * W + w.1) RL_TileCorridor).set (q.2 * W + q.1) RL_TileCorridor⟩ c ↔
      (corridorCell ⟨W, H, tiles⟩ c ∨ c = w) ∨ c = q := by
    intro c
    rw [corridor_set_iff (by rw [List.length_set]; exact hT.len) (by omega) (by omega),
      corridor_set_iff hT.len (by omega) (by omega)]
  have hmono : ∀ c, corridorCell ⟨W, H, tiles⟩ c → corridorCell ⟨W, H,
      (tiles.set (w.2 * W + w.1) RL_TileCorridor).set (q.2 * W + q.1) RL_TileCorridor⟩ c := by
    intro c hc
    rw [hc2]
    exact Or.inl (Or.inl hc)
  have hqc2 : corridorCell ⟨W, H,
      (tiles.set (w.2 * W + w.1) RL_TileCorridor).set (q.2 * W + q.1) RL_TileCorridor⟩ q := by
    rw [hc2]
    exact Or.inr rfl
  have hwc2 : corridorCell ⟨W, H,
      (tiles.set (w.2 * W + w.1) RL_TileCorridor).set (q.2 * W + q.1) RL_TileCorridor⟩ w := by
    rw [hc2]
    exact Or.inl (Or.inr rfl)
  have hGmono : mazeGraph ⟨W, H, tiles⟩ ≤ mazeGraph ⟨W, H,
      (tiles.set (w.2 * W + w.1) RL_TileCorridor).set (q.2 * W + q.1) RL_TileCorridor⟩ := by
    intro a b hab
    exact ⟨hmono a hab.1, hmono b hab.2.1, hab.2.2⟩
  have hqnbr : ∀ a, (mazeGraph ⟨W, H,
      (tiles.set (w.2 * W + w.1) RL_TileCorridor).set (q.2 * W + q.1) RL_TileCorridor⟩).Adj q a →
      a = w := by
    intro a ha
    obtain ⟨_, hac2, horth⟩ := ha
    rw [hc2] at hac2
    rcases hac2 with (hold | rfl) | rfl
    · exact (rock_neighbor_not_corridor hT hqpar hqnc horth hold).elim
    · rfl
    · exact absurd horth (by
        unfold orthAdjacent
        rintro (⟨_, h⟩ | ⟨_, h⟩) <;> omega)
  have hwnbr : ∀ a, (mazeGraph ⟨W, H,
      (tiles.set (w.2 * W + w.1) RL_TileCorridor).set (q.2 * W + q.1) RL_TileCorridor⟩).Adj w a →
      a = p ∨ a = q := by
    intro a ha
    obtain ⟨_, hac2, horth⟩ := ha
    unfold orthAdjacent at horth
    rw [hc2] at hac2
    obtain ⟨hq1, hq2⟩ := hqpar
    rcases kpar with ⟨k1, k2, kf⟩ | ⟨k1, k2, kf⟩
    · rcases horth with ⟨e1, e2 | e2⟩ | ⟨e1, e2 | e2⟩
      · exfalso
        rcases hac2 with (hold | rfl) | rfl
        · rcases hT.par a hold with ⟨ha1, ha2⟩ | ⟨ha1, ha2, _, _⟩ | ⟨ha1, ha2, _, _⟩ <;> omega
        · omega
        · omega
      · exfalso
        rcases hac2 with (hold | rfl) | rfl
        · rcases hT.par a hold with ⟨ha1, ha2⟩ | ⟨ha1, ha2, _, _⟩ | ⟨ha1, ha2, _, _⟩ <;> omega
        · omega
        · omega
      · have haeq : a = (w.1 + 1, w.2) := Prod.ext (by omega) (by omega)
        rcases kf with ⟨kfa, kfb⟩ | ⟨kfa, kfb⟩
        · exact Or.inl (by rw [haeq, kfb])
        · exact Or.inr (by rw [haeq, kfb])
      · have haeq : a = (w.1 - 1, w.2) := Prod.ext (by omega) (by omega)
        rcases kf with ⟨kfa, kfb⟩ | ⟨kfa, kfb⟩
        · exact Or.inr (by rw [haeq, kfa])
        · exact Or.inl (by rw [haeq, kfa])
    · rcases horth with ⟨e1, e2 | e2⟩ | ⟨e1, e2 | e2⟩
      · have haeq : a = (w.1, w.2 + 1) := Prod.ext (by omega) (by omega)
        rcases kf with ⟨kfa, kfb⟩ | ⟨kfa, kfb⟩
        · exact Or.inl (by rw [haeq, kfb])
        · exact Or.inr (by rw [haeq, kfb])
      · have haeq : a = (w.1, w.2 - 1) := Prod.ext (by omega) (by omega)
        rcases kf with ⟨kfa, kfb⟩ | ⟨kfa, kfb⟩
        · exact Or.inr (by rw [haeq, kfa])
        · exact Or.inl (by rw [haeq, kfa])
      · exfalso
        rcases hac2 with (hold | rfl) | rfl
        · rcases hT.par a hold with ⟨ha1, ha2⟩ | ⟨ha1, ha2, _, _⟩ | ⟨ha1, ha2, _, _⟩ <;> omega
        · omega
        · omega
      · exfalso
        rcases hac2 with (hold | rfl) | rfl
        · rcases hT.par a hold with ⟨ha1, ha2⟩ | ⟨ha1, ha2, _, _⟩ | ⟨ha1, ha2, _, _⟩ <;> omega
        · omega
        · omega
  refine ⟨⟨?_, ?_, ?_, ?_, ?_, ?_⟩, hmono, hqc2⟩
  · rw [List.length_set, List.length_set]
    exact hT.len
  · exact hmono _ hT.start
  · intro c hc
    rw [hc2] at hc
    rcases hc with (hold | rfl) | rfl
    · exact hT.dom c hold
    · exact ⟨kwreg1, kwreg2, kwreg3, kwreg4⟩
    · exact ⟨hqreg1, hqreg2, hqreg3, hqreg4⟩
  · intro c hc
    rw [hc2] at hc
    rcases hc with (hold | rfl) | rfl
    · rcases hT.par c hold with h | ⟨h1, h2, h3, h4⟩ | ⟨h1, h2, h3, h4⟩
      · exact Or.inl h
      · exact Or.inr (Or.inl ⟨h1, h2, hmono _ h3, hmono _ h4⟩)
      · exact Or.inr (Or.inr ⟨h1, h2, hmono _ h3, hmono _ h4⟩)
    · rcases kpar with ⟨k1, k2, kf⟩ | ⟨k1, k2, kf⟩
      · refine Or.inr (Or.inl ⟨k1, k2, ?_, ?_⟩)
        · rcases kf with ⟨kfa, _⟩ | ⟨kfa, _⟩
          · rw [kfa]; exact hqc2
          · rw [kfa]; exact hmono _ hpc
        · rcases kf with ⟨_, kfb⟩ | ⟨_, kfb⟩
          · rw [kfb]; exact hmono _ hpc
          · rw [kfb]; exact hqc2
      · refine Or.inr (Or.inr ⟨k1, k2, ?_, ?_⟩)
        · rcases kf with ⟨kfa, _⟩ | ⟨kfa, _⟩
          · rw [kfa]; exact hqc2
          · rw [kfa]; exact hmono _ hpc
        · rcases kf with ⟨_, kfb⟩ | ⟨_, kfb⟩
          · rw [kfb]; exact hmono _ hpc
          · rw [kfb]; exact hqc2
    · exact Or.inl hqpar
  · intro c hc
    rw [hc2] at hc
    have hwp : (mazeGraph ⟨W, H,
        (tiles.set (w.2 * W + w.1) RL_TileCorridor).set (q.2 * W + q.1) RL_TileCorridor⟩).Adj
        w p := ⟨hwc2, hmono _ hpc, korthwp⟩
    have hwreach := hwp.reachable.trans ((hT.con p hpc).mono hGmono)
    rcases hc with (hold | rfl) | rfl
    · exact (hT.con c hold).mono hGmono
    · exact hwreach
    · have hqw : (mazeGraph ⟨W, H,
          (tiles.set (w.2 * W + w.1) RL_TileCorridor).set (c.2 * W + c.1) RL_TileCorridor⟩).Adj
          c w := ⟨hqc2, hwc2, korthqw⟩
      exact hqw.reachable.trans hwreach
  · exact isAcyclic_pendant hqnbr hwnbr
      (fun a b hab ha1 ha2 hb1 hb2 => by
        obtain ⟨hac, hbc, horth⟩ := hab
        rw [hc2] at hac hbc
        rcases hac with (hold1 | rfl) | rfl
        · rcases hbc with (hold2 | rfl) | rfl
          · exact ⟨hold1, hold2, horth⟩
          · exact absurd rfl hb2
          · exact absurd rfl hb1
        · exact absurd rfl ha2
        · exact absurd rfl ha1)
      hT.acy (fun h => kwq h.symm)

theorem cell_idx_lt {W H x y : Nat} (hx : x < W) (hy : y < H) : y * W + x < W * H := by
  calc y * W + x < y * W + W := by omega
  _ = (y + 1) * W := by ring
  _ ≤ H * W := Nat.mul_le_mul_right W (by omega)
  _ = W * H := Nat.mul_comm H W

/-- Carving removes exactly one cell from the uncarved start-parity count:
    the target q counts, the wall w never does. -/
theorem maze_rock_count_carve {W H x0 y0 : Nat} {tiles : List Nat} {q w : Nat × Nat}
    (hlen : tiles.length = W * H) (hq1 : q.1 < W) (hq2 : q.2 < H)
    (hw1 : w.1 < W)
    (hqrock : tiles.getD (q.2 * W + q.1) 0 = RL_TileRock)
    (hqpar1 : q.1 % 2 = x0 % 2) (hqpar2 : q.2 % 2 = y0 % 2)
    (hwpar : w.1 % 2 ≠ x0 % 2 ∨ w.2 % 2 ≠ y0 % 2) :
    ((Finset.range ((tiles.set (w.2 * W + w.1) RL_TileCorridor).set
        (q.2 * W + q.1) RL_TileCorridor).length).filter
      (fun i => ((tiles.set (w.2 * W + w.1) RL_TileCorridor).set
          (q.2 * W + q.1) RL_TileCorridor).getD i 0 ≠ RL_TileCorridor ∧
        (i % W) % 2 = x0 % 2 ∧ (i / W) % 2 = y0 % 2)).card + 1 =
    ((Finset.range tiles.length).filter
      (fun i => tiles.getD i 0 ≠ RL_TileCorridor ∧
        (i % W) % 2 = x0 % 2 ∧ (i / W) % 2 = y0 % 2)).card := by
  have hW0 : 0 < W := by omega
  have hqidx : q.2 * W + q.1 < tiles.length := by rw [hlen]; exact cell_idx_lt hq1 hq2
  have hqmod : (q.2 * W + q.1) % W = q.1 := by
    rw [show q.2 * W = W * q.2 from Nat.mul_comm _ _, Nat.mul_add_mod]
    exact Nat.mod_eq_of_lt hq1
  have hqdiv : (q.2 * W + q.1) / W = q.2 := by
    rw [show q.2 * W = W * q.2 from Nat.mul_comm _ _, Nat.mul_add_div hW0]
    rw [Nat.div_eq_of_lt hq1]
    omega
  have hwmod : (w.2 * W + w.1) % W = w.1 := by
    rw [show w.2 * W = W * w.2 from Nat.mul_comm _ _, Nat.mul_add_mod]
    exact Nat.mod_eq_of_lt hw1
  have hwdiv : (w.2 * W + w.1) / W = w.2 := by
    rw [show w.2 * W = W * w.2 from Nat.mul_comm _ _, Nat.mul_add_div hW0]
    rw [Nat.div_eq_of_lt hw1]
    omega
  have hlen2 : ((tiles.set (w.2 * W + w.1) RL_TileCorridor).set
      (q.2 * W + q.1) RL_TileCorridor).length = tiles.length := by
    rw [List.length_set, List.length_set]
  rw [hlen2]
  have hseteq : (Finset.range tiles.length).filter
      (fun i => ((tiles.set (w.2 * W + w.1) RL_TileCorridor).set
          (q.2 * W + q.1) RL_TileCorridor).getD i 0 ≠ RL_TileCorridor ∧
        (i % W) % 2 = x0 % 2 ∧ (i / W) % 2 = y0 % 2) =
      ((Finset.range tiles.length).filter
        (fun i => tiles.getD i 0 ≠ RL_TileCorridor ∧
          (i % W) % 2 = x0 % 2 ∧ (i / W) % 2 = y0 % 2)).erase (q.2 * W + q.1) := by
    ext i
    simp only [Finset.mem_filter, Finset.mem_erase, Finset.mem_range]
    constructor
    · rintro ⟨hir, hnc, hp1, hp2⟩
      have hiq : i ≠ q.2 * W + q.1 := by
        intro hh
        rw [hh] at hnc
        rw [getD_set_self2 (by rw [List.length_set]; exact hqidx) _ _] at hnc
        exact hnc rfl
      have hiw : i ≠ w.2 * W + w.1 := by
        intro hh
        rw [hh] at hp1 hp2
        rw [hwmod] at hp1
        rw [hwdiv] at hp2
        rcases hwpar with hc | hc <;> exact hc (by omega)
      rw [getD_set_ne2 hiq _ _, getD_set_ne2 hiw _ _] at hnc
      exact ⟨hiq, hir, hnc, hp1, hp2⟩
    · rintro ⟨hiq, hir, hnc, hp1, hp2⟩
      have hiw : i ≠ w.2 * W + w.1 := by
        intro hh
        rw [hh] at hp1 hp2
        rw [hwmod] at hp1
        rw [hwdiv] at hp2
        rcases hwpar with hc | hc <;> exact hc (by omega)
      refine ⟨hir, ?_, hp1, hp2⟩
      rw [getD_set_ne2 hiq _ _, getD_set_ne2 hiw _ _]
      exact hnc
  rw [hseteq]
  have hqin : q.2 * W + q.1 ∈ (Finset.range tiles.length).filter
      (fun i => tiles.getD i 0 ≠ RL_TileCorridor ∧
        (i % W) % 2 = x0 % 2 ∧ (i / W) % 2 = y0 % 2) := by
    simp only [Finset.mem_filter, Finset.mem_range]
    refine ⟨hqidx, ?_, ?_, ?_⟩
    · rw [hqrock]
      unfold RL_TileRock RL_TileCorridor
      omega
    · rw [hqmod]; exact hqpar1
    · rw [hqdiv]; exact hqpar2
  rw [Finset.card_erase_of_mem hqin]
  have := Finset.card_pos.mpr ⟨_, hqin⟩
  omega

/-- The growing-tree loop preserves the tile invariant; the fuel passed by
    rl_mapgen_maze_ex dominates the loop potential, matching the C while
    loop that runs until the heap drains. -/
theorem mazeLoop_spec {W H x0 y0 : Nat} (rng : Nat → Nat → Nat → Nat)
    (hrng : ∀ k lo hi, lo ≤ hi → lo ≤ rng k lo hi ∧ rng k lo hi ≤ hi)
    (hW : 2 < W) (hH : 2 < H) :
    ∀ fuel tiles heap k, MazeTileInv W H x0 y0 tiles →
      MazeHeapInv W H x0 y0 tiles heap →
      mazePhi W x0 y0 tiles heap < fuel →
      MazeTileInv W H x0 y0 (mazeLoop rng W 1 (W - 1) 1 (H - 1) fuel tiles heap k) := by
  intro fuel
  induction fuel with
  | zero =>
    intro tiles heap k _ _ hphi
    omega
  | succ n ih =>
    intro tiles heap k hT hHp hphi
    cases hheap : heap with
    | nil =>
      simp only [mazeLoop, rl_heap_pop]
      exact hT
    | cons p rest =>
      have hpmem : p ∈ heap := by rw [hheap]; simp
      obtain ⟨hpc, hppar⟩ := hHp p hpmem
      simp only [mazeLoop, rl_heap_pop]
      by_cases hns : (mazeNeighbors tiles W p 1 (W - 1) 1 (H - 1)).length = 0
      · rw [if_pos hns]
        refine ih tiles _ k hT ?_ ?_
        · intro c hc
          exact hHp c (by
            rw [hheap]
            exact List.mem_cons_of_mem p ((mem_heapRemoveTop _ _ _ _).mp hc))
        · have h1 : (heapRemoveTop (noopCmp (α := Nat × Nat)) (p :: rest)).length =
              rest.length := length_heapRemoveTop _ _ _
          unfold mazePhi at hphi ⊢
          rw [h1]
          rw [hheap] at hphi
          simp only [List.length_cons] at hphi
          omega
      · rw [if_neg hns]
        have hilen : rng k 0 ((mazeNeighbors tiles W p 1 (W - 1) 1 (H - 1)).length - 1) <
            (mazeNeighbors tiles W p 1 (W - 1) 1 (H - 1)).length := by
          have := (hrng k 0 ((mazeNeighbors tiles W p 1 (W - 1) 1 (H - 1)).length - 1)
            (by omega)).2
          omega
        set q := (mazeNeighbors tiles W p 1 (W - 1) 1 (H - 1)).getD
          (rng k 0 ((mazeNeighbors tiles W p 1 (W - 1) 1 (H - 1)).length - 1)) (0, 0) with hqdef
        have hqmem : q ∈ mazeNeighbors tiles W p 1 (W - 1) 1 (H - 1) := by
          rw [hqdef, List.getD_eq_getElem _ _ hilen]
          exact List.getElem_mem hilen
        obtain ⟨hb1, hb2, hb3, hb4, hrock, hrel0⟩ := mazeNeighbors_mem hqmem
        set wx := if q.1 < p.1 then q.1 + 1 else if p.1 < q.1 then q.1 - 1 else q.1 with hwxdef
        set wy := if q.2 < p.2 then q.2 + 1 else if p.2 < q.2 then q.2 - 1 else q.2 with hwydef
        have hrel : (q.1 + 2 = p.1 ∧ q.2 = p.2 ∧ (wx, wy) = (q.1 + 1, q.2)) ∨
            (q.1 = p.1 + 2 ∧ q.2 = p.2 ∧ (wx, wy) = (q.1 - 1, q.2)) ∨
            (q.1 = p.1 ∧ q.2 + 2 = p.2 ∧ (wx, wy) = (q.1, q.2 + 1)) ∨
            (q.1 = p.1 ∧ q.2 = p.2 + 2 ∧ (wx, wy) = (q.1, q.2 - 1)) := by
          rcases hrel0 with ⟨e1, e2⟩ | ⟨e1, e2⟩ | ⟨e1, e2⟩ | ⟨e1, e2⟩
          · refine Or.inl ⟨e1, e2, ?_⟩
            rw [hwxdef, hwydef]
            refine Prod.ext ?_ ?_ <;> dsimp only
            · rw [if_pos (by omega)]
            · rw [if_neg (by omega), if_neg (by omega)]
          · refine Or.inr (Or.inl ⟨e1, e2, ?_⟩)
            rw [hwxdef, hwydef]
            refine Prod.ext ?_ ?_ <;> dsimp only
            · rw [if_neg (by omega), if_pos (by omega)]
            · rw [if_neg (by omega), if_neg (by omega)]
          · refine Or.inr (Or.inr (Or.inl ⟨e1, e2, ?_⟩))
            rw [hwxdef, hwydef]
            refine Prod.ext ?_ ?_ <;> dsimp only
            · rw [if_neg (by omega), if_neg (by omega)]
            · rw [if_pos (by omega)]
          · refine Or.inr (Or.inr (Or.inr ⟨e1, e2, ?_⟩))
            rw [hwxdef, hwydef]
            refine Prod.ext ?_ ?_ <;> dsimp only
            · rw [if_neg (by omega), if_neg (by omega)]
            · rw [if_neg (by omega), if_pos (by omega)]
        obtain ⟨hT2, hmono2, hqc2⟩ := maze_carve_step (w := (wx, wy)) hT hpc hppar
          ⟨hb1, hb2, hb3, hb4⟩ hrock hrel
        refine ih _ _ _ hT2 ?_ ?_
        · intro c hc
          rw [mem_rl_heap_insert] at hc
          rcases hc with rfl | hc
          · refine ⟨hqc2, ?_⟩
            obtain ⟨hp1, hp2⟩ := hppar
            constructor <;>
              (rcases hrel0 with ⟨e1, e2⟩ | ⟨e1, e2⟩ | ⟨e1, e2⟩ | ⟨e1, e2⟩ <;> omega)
          · rw [mem_rl_heap_insert] at hc
            rcases hc with rfl | hc
            · exact ⟨hmono2 c hpc, hppar⟩
            · have hcheap : c ∈ heap := by
                rw [hheap]
                exact List.mem_cons_of_mem p ((mem_heapRemoveTop _ _ _ _).mp hc)
              obtain ⟨h1, h2⟩ := hHp c hcheap
              exact ⟨hmono2 c h1, h2⟩
        · have hq1W : q.1 < W := by omega
          have hq2H : q.2 < H := by omega
          have hwx1 : wx < W := by
            rw [hwxdef]
            obtain ⟨hd1, hd2, hd3, hd4⟩ := hT.dom p hpc
            by_cases h1 : q.1 < p.1
            · rw [if_pos h1]; omega
            · rw [if_neg h1]
              by_cases h2 : p.1 < q.1
              · rw [if_pos h2]; omega
              · rw [if_neg h2]; omega
          have hwpar : wx % 2 ≠ x0 % 2 ∨ wy % 2 ≠ y0 % 2 := by
            obtain ⟨hp1, hp2⟩ := hppar
            rcases hrel with ⟨e1, e2, e3⟩ | ⟨e1, e2, e3⟩ | ⟨e1, e2, e3⟩ | ⟨e1, e2, e3⟩ <;>
              rw [Prod.mk.injEq] at e3
            · exact Or.inl (by omega)
            · exact Or.inl (by omega)
            · exact Or.inr (by omega)
            · exact Or.inr (by omega)
          have hqpar1 : q.1 % 2 = x0 % 2 := by
            obtain ⟨hp1, hp2⟩ := hppar
            rcases hrel0 with ⟨e1, e2⟩ | ⟨e1, e2⟩ | ⟨e1, e2⟩ | ⟨e1, e2⟩ <;> omega
          have hqpar2 : q.2 % 2 = y0 % 2 := by
            obtain ⟨hp1, hp2⟩ := hppar
            rcases hrel0 with ⟨e1, e2⟩ | ⟨e1, e2⟩ | ⟨e1, e2⟩ | ⟨e1, e2⟩ <;> omega
          have hcount := maze_rock_count_carve (w := (wx, wy)) hT.len hq1W hq2H hwx1
            hrock hqpar1 hqpar2 hwpar
          unfold mazePhi at hphi ⊢
          rw [length_rl_heap_insert, length_rl_heap_insert, length_heapRemoveTop]
          rw [hheap] at hphi
          simp only [List.length_cons] at hphi
          dsimp only at hcount
          omega

/-- After the memset and the first carve, the single corridor cell is the
    start cell and the invariant holds. -/
theorem maze_init_inv {W H x0 y0 : Nat} (hW : 2 < W) (hH : 2 < H)
    (hx0a : 1 ≤ x0) (hx0b : x0 ≤ W - 2) (hy0a : 1 ≤ y0) (hy0b : y0 ≤ H - 2)
    {tiles1 : List Nat} (hlen1 : tiles1.length = W * H)
    (hall : ∀ i, i < W * H → tiles1.getD i 0 = RL_TileRock) :
    MazeTileInv W H x0 y0 (tiles1.set (y0 * W + x0) RL_TileCorridor) ∧
    MazeHeapInv W H x0 y0 (tiles1.set (y0 * W + x0) RL_TileCorridor) [(x0, y0)] ∧
    mazePhi W x0 y0 (tiles1.set (y0 * W + x0) RL_TileCorridor) [(x0, y0)] <
      2 * (W * H) + 2 := by
  have hnc1 : ∀ c, ¬ corridorCell ⟨W, H, tiles1⟩ c := by
    rintro c ⟨h1, h2, h3⟩
    unfold tileAt at h3
    rw [hall _ (cell_idx_lt h1 h2)] at h3
    exact absurd h3 (by unfold RL_TileRock RL_TileCorridor; omega)
  have hiff := corridor_set_iff (b := (x0, y0)) hlen1
    (show (x0, y0).1 < W by dsimp only; omega)
    (show (x0, y0).2 < H by dsimp only; omega)
  dsimp only at hiff
  have hc0 : ∀ c, corridorCell ⟨W, H, tiles1.set (y0 * W + x0) RL_TileCorridor⟩ c ↔
      c = (x0, y0) := by
    intro c
    rw [hiff c]
    constructor
    · rintro (hold | rfl)
      · exact absurd hold (hnc1 c)
      · rfl
    · rintro rfl
      exact Or.inr rfl
  have hstart : corridorCell ⟨W, H, tiles1.set (y0 * W + x0) RL_TileCorridor⟩ (x0, y0) :=
    (hc0 _).mpr rfl
  refine ⟨⟨?_, hstart, ?_, ?_, ?_, ?_⟩, ?_, ?_⟩
  · rw [List.length_set]
    exact hlen1
  · intro c hc
    rw [hc0] at hc
    subst hc
    exact ⟨hx0a, by omega, hy0a, by omega⟩
  · intro c hc
    rw [hc0] at hc
    subst hc
    exact Or.inl ⟨rfl, rfl⟩
  · intro c hc
    rw [hc0] at hc
    subst hc
    exact SimpleGraph.Reachable.refl _
  · intro v c hc
    obtain ⟨a, b, hab, ha, hb, _, _⟩ := cycle_two_neighbors c hc
    have h1 : a = (x0, y0) := (hc0 _).mp ha.2.1
    have h2 : b = (x0, y0) := (hc0 _).mp hb.2.1
    rw [h1, h2] at hab
    exact hab rfl
  · intro c hc
    rcases List.mem_singleton.mp hc with rfl
    exact ⟨hstart, rfl, rfl⟩
  · unfold mazePhi
    rw [List.length_set, hlen1]
    have h1 := Finset.card_filter_le
      (Finset.range (W * H))
      (fun i => (tiles1.set (y0 * W + x0) RL_TileCorridor).getD i 0 ≠ RL_TileCorridor ∧
        (i % W) % 2 = x0 % 2 ∧ (i / W) % 2 = y0 % 2)
    rw [Finset.card_range] at h1
    simp only [List.length_singleton]
    omega

/-- Claim C4 (confirmed).  On a well-formed map wider and taller than 2,
    rl_mapgen_maze carves a non-empty set of Corridor cells forming a
    perfect maze: the corridor graph under orthogonal adjacency is
    connected, and between any two cells there is exactly one simple path
    (the graph is acyclic).  The RNG is any function returning values in
    the requested range. -/
theorem C4_maze_perfect (m : RL_Map) (rng : Nat → Nat → Nat → Nat)
    (hWF : m.WF) (hw : 2 < m.width) (hh : 2 < m.height)
    (hrng : ∀ k lo hi, lo ≤ hi → lo ≤ rng k lo hi ∧ rng k lo hi ≤ hi) :
    (∃ c, corridorCell (rl_mapgen_maze rng m) c) ∧
    (∀ a b, corridorCell (rl_mapgen_maze rng m) a →
      corridorCell (rl_mapgen_maze rng m) b →
      (mazeGraph (rl_mapgen_maze rng m)).Reachable a b) ∧
    (∀ a b, corridorCell (rl_mapgen_maze rng m) a →
      corridorCell (rl_mapgen_maze rng m) b →
      ∀ P Q : (mazeGraph (rl_mapgen_maze rng m)).Path a b, P = Q) := by
  obtain ⟨hW0, hH0, hlen, _⟩ := hWF
  have e3 : 1 + (m.width - 2) - 1 = m.width - 2 := by omega
  have e4 : 1 + (m.height - 2) - 1 = m.height - 2 := by omega
  have e1 : 1 + (m.width - 2) = m.width - 1 := by omega
  have e2 : 1 + (m.height - 2) = m.height - 1 := by omega
  simp only [rl_mapgen_maze, rl_mapgen_maze_ex]
  rw [e3, e4, e1, e2]
  set x0 := rng 0 1 (m.width - 2) with hx0def
  set y0 := rng 1 1 (m.height - 2) with hy0def
  obtain ⟨hx0a, hx0b⟩ := hrng 0 1 (m.width - 2) (by omega)
  obtain ⟨hy0a, hy0b⟩ := hrng 1 1 (m.height - 2) (by omega)
  set tiles1 := (List.range ((List.range m.tiles.length).map
    (fun _ => RL_TileRock)).length).map
    (fun idx => if 1 ≤ idx % m.width ∧ idx % m.width < m.width - 1 ∧
      1 ≤ idx / m.width ∧ idx / m.width < m.height - 1
      then RL_TileRock
      else ((List.range m.tiles.length).map (fun _ => RL_TileRock)).getD idx 0) with ht1def
  have hlen1 : tiles1.length = m.width * m.height := by
    rw [ht1def]
    simp only [List.length_map, List.length_range]
    exact hlen
  have hall : ∀ i, i < m.width * m.height → tiles1.getD i 0 = RL_TileRock := by
    intro i hi
    rw [ht1def]
    rw [List.getD_eq_getElem _ _ (by
      simp only [List.length_map, List.length_range]
      omega)]
    rw [List.getElem_map, List.getElem_range]
    split
    · rfl
    · rw [List.getD_eq_getElem _ _ (by
        simp only [List.length_map, List.length_range]
        omega)]
      rw [List.getElem_map]
  obtain ⟨hTi, hHi, hphi⟩ := maze_init_inv hw hh hx0a hx0b hy0a hy0b hlen1 hall
  have hins : rl_heap_insert (noopCmp (α := Nat × Nat)) [] (x0, y0) = [(x0, y0)] := rfl
  rw [hins]
  have hfin := mazeLoop_spec rng hrng hw hh
    (2 * (m.width * m.height) + 2) (tiles1.set (y0 * m.width + x0) RL_TileCorridor)
    [(x0, y0)] 2 hTi hHi hphi
  refine ⟨⟨(x0, y0), hfin.start⟩, ?_, ?_⟩
  · intro a b ha hb
    exact (hfin.con a ha).trans (hfin.con b hb).symm
  · intro a b _ _ P Q
    exact SimpleGraph.isAcyclic_iff_path_unique.mp hfin.acy P Q

/-- A 4 by 4 all-rock map and the low-end RNG used by the C4 witness. -/
def mapMaze4 : RL_Map := ⟨4, 4, (List.range 16).map (fun _ => RL_TileRock)⟩

theorem C4_maze_perfect_witness :
    (mapMaze4.WF ∧ 2 < mapMaze4.width ∧ 2 < mapMaze4.height) ∧
      ((∃ c, corridorCell (rl_mapgen_maze (fun _ lo _ => lo) mapMaze4) c) ∧
      (∀ a b, corridorCell (rl_mapgen_maze (fun _ lo _ => lo) mapMaze4) a →
        corridorCell (rl_mapgen_maze (fun _ lo _ => lo) mapMaze4) b →
        (mazeGraph (rl_mapgen_maze (fun _ lo _ => lo) mapMaze4)).Reachable a b) ∧
      (∀ a b, corridorCell (rl_mapgen_maze (fun _ lo _ => lo) mapMaze4) a →
        corridorCell (rl_mapgen_maze (fun _ lo _ => lo) mapMaze4) b →
        ∀ P Q : (mazeGraph (rl_mapgen_maze (fun _ lo _ => lo) mapMaze4)).Path a b, P = Q)) :=
  ⟨⟨by decide, by decide, by decide⟩,
    C4_maze_perfect mapMaze4 (fun _ lo _ => lo) (by decide) (by decide) (by decide)
      (fun _ lo _ h => ⟨Nat.le_refl lo, h⟩)⟩

end MazeProof

end Roguelike
